import Mathlib

/-
Verification development for `bibfix.py`.

The program's strings are modelled as lists of Unicode code points
(`PyStr := List Nat`), restricted to the ASCII semantics of the character
predicates the program relies on (`str.isalpha`, `str.isupper`,
`str.isdigit`, `str.isspace`, `str.lower`, `str.upper`).  Python dicts
(the bibliography records) are modelled as insertion-ordered association
lists with first-match lookup and in-place overwrite.  Every definition
follows the corresponding source function of `src/bibfix.py`; the
`-- bibfix.py:` comments give the source lines being embedded.
-/

namespace Bibfix

/-- A Python string: its list of code points. -/
abbrev PyStr := List Nat

/-- Code points of a Lean string literal, for readable concrete inputs. -/
def ofStr (s : String) : PyStr := s.data.map Char.toNat

/-- ASCII `str.islower` for a single character: `a`..`z`. -/
def isLowerN (c : Nat) : Bool := decide (97 ≤ c ∧ c ≤ 122)

/-- ASCII `str.isupper` for a single character: `A`..`Z`. -/
def isUpperN (c : Nat) : Bool := decide (65 ≤ c ∧ c ≤ 90)

/-- ASCII `str.isalpha` for a single character. -/
def isAlphaN (c : Nat) : Bool := isUpperN c || isLowerN c

/-- ASCII `str.isdigit` for a single character: `0`..`9`. -/
def isDigitN (c : Nat) : Bool := decide (48 ≤ c ∧ c ≤ 57)

/-- ASCII whitespace, the characters matched by `\s` and `str.isspace`:
space, tab, newline, carriage return, vertical tab, form feed. -/
def isSpaceN (c : Nat) : Bool := decide (c = 32 ∨ c = 9 ∨ c = 10 ∨ c = 13 ∨ c = 11 ∨ c = 12)

/-- The sentence-terminating punctuation class `[.:;!?]` of
`apply_title_no_cap` (bibfix.py:209). -/
def isTermN (c : Nat) : Bool := decide (c = 46 ∨ c = 58 ∨ c = 59 ∨ c = 33 ∨ c = 63)

/-- ASCII `str.lower` on one character. -/
def toLowerN (c : Nat) : Nat := if isUpperN c then c + 32 else c

/-- ASCII `str.upper` on one character. -/
def toUpperN (c : Nat) : Nat := if isLowerN c then c - 32 else c

/-- Python `s.lower()`. -/
def pyLower (w : PyStr) : PyStr := w.map toLowerN

/-- Python `s.isspace()`: non-empty and all characters whitespace. -/
def pyIsSpace (w : PyStr) : Bool := !w.isEmpty && w.all isSpaceN

/-- Python `s.isupper()` (ASCII): at least one cased character and no
lowercase character. -/
def pyIsUpper (w : PyStr) : Bool := w.any isAlphaN && w.all (fun c => !isLowerN c)

/-- Python `s.strip()`: remove leading and trailing whitespace. -/
def pyStrip (w : PyStr) : PyStr := ((w.dropWhile isSpaceN).reverse.dropWhile isSpaceN).reverse

/-- Python `s.capitalize()` (ASCII): first character uppercased, the rest
lowercased. -/
def pyCapitalize : PyStr → PyStr
  | [] => []
  | c :: rest => toUpperN c :: rest.map toLowerN

/-- Does the string start with the given pattern? -/
def strStarts : PyStr → PyStr → Bool
  | [], _ => true
  | _ :: _, [] => false
  | p :: ps, c :: cs => p == c && strStarts ps cs

/-- Python `pat in hay` substring test. -/
def strContains (hay pat : PyStr) : Bool :=
  strStarts pat hay ||
    (match hay with
     | [] => false
     | _ :: t => strContains t pat)

/-- bibfix.py:17-19, `normalize_string`: drop every character outside
`[a-zA-Z0-9 ]`, lowercase, strip; the empty string maps to itself. -/
def normalize_string (s : PyStr) : PyStr :=
  if s.isEmpty then []
  else pyStrip (pyLower (s.filter (fun c => isAlphaN c || isDigitN c || c == 32)))

/-- Python `s.split(' and ')`: split on the 5-character literal separator
(codes 32 97 110 100 32), scanning left to right; `acc` holds the current
piece reversed. -/
def splitAnd : PyStr → PyStr → List PyStr
  | [], acc => [acc.reverse]
  | 32 :: 97 :: 110 :: 100 :: 32 :: rest, acc => acc.reverse :: splitAnd rest []
  | c :: rest, acc => splitAnd rest (c :: acc)

/-- Python `sep.join(pieces)`. -/
def joinSep (sep : PyStr) : List PyStr → PyStr
  | [] => []
  | [x] => x
  | x :: y :: rest => x ++ sep ++ joinSep sep (y :: rest)

/-- bibfix.py:96-102, `truncate_authors`. -/
def truncate_authors (authors_string : PyStr) (max_authors : Int) : PyStr :=
  if authors_string.isEmpty || max_authors < 0 then authors_string
  else
    let authors := (splitAnd authors_string []).map pyStrip
    if max_authors < (authors.length : Int) then
      joinSep (ofStr " and ") (authors.take max_authors.toNat) ++ ofStr " and others"
    else authors_string

/-- bibfix.py:154-159, `capitalize_alpha` (the second, surviving
definition): uppercase the first alphabetic character, lowercase
everything after it. -/
def capitalize_alpha : PyStr → PyStr
  | [] => []
  | c :: rest =>
    if isAlphaN c then toUpperN c :: rest.map toLowerN
    else c :: capitalize_alpha rest

/-- bibfix.py:161-163, `lowercase_alpha` (the second, surviving
definition): lowercase every alphabetic character. -/
def lowercase_alpha (w : PyStr) : PyStr :=
  w.map (fun c => if isAlphaN c then toLowerN c else c)

/-- The alphanumeric-sanitized lowercase form of a chunk
(bibfix.py:183): `re.sub(r'[^a-z0-9]+', '', chunk.lower())`. -/
def sanitizeChunk (w : PyStr) : PyStr :=
  (pyLower w).filter (fun c => isLowerN c || isDigitN c)

/-- bibfix.py:209, `re.search(r'[.:;!?]\s*$', chunk)`: after discarding
trailing whitespace, the last character is sentence-terminating
punctuation. -/
def endsSentence (w : PyStr) : Bool :=
  match w.reverse.dropWhile isSpaceN with
  | [] => false
  | t :: _ => isTermN t

/-- bibfix.py:187-193: a word chunk is preserved when the exception set is
non-empty and contains its sanitized or lowercase form, or it has two or
more uppercase letters, or `chunk.isupper()`, or it contains a digit. -/
def classifyPreserve (E : List PyStr) (chunk : PyStr) : Bool :=
  (!E.isEmpty && (E.contains (sanitizeChunk chunk) || E.contains (pyLower chunk)))
    || decide (2 ≤ (chunk.filter isUpperN).length)
    || pyIsUpper chunk
    || chunk.any isDigitN

/-- bibfix.py:196-202: the string appended for a word chunk. -/
def recaseWord (E : List PyStr) (cap : Bool) (chunk : PyStr) : PyStr :=
  if classifyPreserve E chunk then chunk
  else if cap then capitalize_alpha chunk
  else lowercase_alpha chunk

/-- bibfix.py:175-211, the chunk loop of `apply_title_no_cap`: empty
chunks are skipped, whitespace chunks pass through, word chunks (non-empty
sanitized form) are preserved or recased and clear `capitalize_next`, and
pure-punctuation chunks pass through, setting `capitalize_next` when they
end in sentence punctuation. -/
def processChunks (E : List PyStr) : List PyStr → Bool → List PyStr
  | [], _ => []
  | chunk :: rest, cap =>
    if chunk.isEmpty then processChunks E rest cap
    else if pyIsSpace chunk then chunk :: processChunks E rest cap
    else if !(sanitizeChunk chunk).isEmpty then
      recaseWord E cap chunk :: processChunks E rest false
    else
      chunk :: processChunks E rest (if endsSentence chunk then true else cap)

/-- `re.split(r'(\s+)', s)` (bibfix.py:170): alternate maximal runs of
non-whitespace and whitespace, keeping the (possibly empty) piece before
and after each whitespace run.  `inWs` says whether `acc` (reversed)
is currently a whitespace run. -/
def splitGo : Bool → PyStr → PyStr → List PyStr
  | true, [], acc => [acc.reverse, []]
  | false, [], acc => [acc.reverse]
  | true, c :: rest, acc =>
    if isSpaceN c then splitGo true rest (c :: acc)
    else acc.reverse :: splitGo false rest [c]
  | false, c :: rest, acc =>
    if isSpaceN c then acc.reverse :: splitGo true rest [c]
    else splitGo false rest (c :: acc)

/-- `re.split(r'(\s+)', s)`. -/
def splitWs (s : PyStr) : List PyStr := splitGo false s []

/-- bibfix.py:165-212, `apply_title_no_cap`. -/
def apply_title_no_cap (title : PyStr) (E : List PyStr) : PyStr :=
  if title.isEmpty then title
  else (processChunks E (splitWs title) true).flatten

/-- A Python dict with string keys and values: an insertion-ordered
association list, looked up by first match. -/
abbrev Dict := List (PyStr × PyStr)

/-- `d.get(k)` / `k in d`. -/
def dictGet (d : Dict) (k : PyStr) : Option PyStr :=
  (d.find? (fun p => p.1 == k)).map (·.2)

/-- `d.get(k, v)`. -/
def dictGetD (d : Dict) (k v : PyStr) : PyStr := (dictGet d k).getD v

/-- `k in d`. -/
def dictHas (d : Dict) (k : PyStr) : Bool := d.any (fun p => p.1 == k)

/-- `d[k] = v`: overwrite in place when the key is present (keys of a
Python dict are unique), otherwise append. -/
def dictSet (d : Dict) (k v : PyStr) : Dict :=
  if dictHas d k then d.map (fun p => if p.1 == k then (k, v) else p)
  else d ++ [(k, v)]

def kENTRYTYPE : PyStr := ofStr "ENTRYTYPE"
def kID : PyStr := ofStr "ID"
def kauthor : PyStr := ofStr "author"
def keditor : PyStr := ofStr "editor"
def ktitle : PyStr := ofStr "title"
def kjournal : PyStr := ofStr "journal"
def kbooktitle : PyStr := ofStr "booktitle"
def kmonth : PyStr := ofStr "month"
def kyear : PyStr := ofStr "year"

/-- bibfix.py:53-66, `ESSENTIAL_FIELDS`, as the map from a (lowercased)
entry type to its set of required field names; an unlisted type maps to
the empty set (`ESSENTIAL_FIELDS.get(entry_type, set())`). -/
def ESSENTIAL_FIELDS (t : PyStr) : List PyStr :=
  if t = ofStr "article" then
    [kauthor, ktitle, kjournal, kyear, ofStr "volume", ofStr "number", ofStr "pages"]
  else if t = ofStr "book" then
    [kauthor, ktitle, ofStr "publisher", kyear, ofStr "address"]
  else if t = ofStr "incollection" then
    [kauthor, ktitle, kbooktitle, ofStr "publisher", kyear, ofStr "pages"]
  else if t = ofStr "inproceedings" then
    [kauthor, ktitle, kbooktitle, kmonth, kyear, ofStr "pages", ofStr "address"]
  else if t = ofStr "proceedings" then
    [ktitle, kyear, keditor, ofStr "address"]
  else if t = ofStr "booklet" then
    [ktitle, kyear]
  else if t = ofStr "manual" then
    [ktitle, ofStr "organization", kyear, ofStr "address"]
  else if t = ofStr "techreport" then
    [kauthor, ktitle, ofStr "institution", kyear, ofStr "number", ofStr "address"]
  else if t = ofStr "mastersthesis" then
    [kauthor, ktitle, ofStr "school", kyear, ofStr "address"]
  else if t = ofStr "phdthesis" then
    [kauthor, ktitle, ofStr "school", kyear, ofStr "address"]
  else if t = ofStr "misc" then
    [kauthor, ktitle, ofStr "note", kmonth, kyear, ofStr "doi"]
  else if t = ofStr "unpublished" then
    [kauthor, ktitle, ofStr "note", kmonth, kyear, ofStr "doi"]
  else []

/-- bibfix.py:69-93, the `MONTHS` table. -/
def MONTHS : List (PyStr × PyStr) :=
  [(ofStr "january", ofStr "Jan"), (ofStr "february", ofStr "Feb"),
   (ofStr "march", ofStr "Mar"), (ofStr "april", ofStr "Apr"),
   (ofStr "may", ofStr "May"), (ofStr "june", ofStr "Jun"),
   (ofStr "july", ofStr "Jul"), (ofStr "august", ofStr "Aug"),
   (ofStr "september", ofStr "Sep"), (ofStr "october", ofStr "Oct"),
   (ofStr "november", ofStr "Nov"), (ofStr "december", ofStr "Dec"),
   (ofStr "jan", ofStr "Jan"), (ofStr "feb", ofStr "Feb"),
   (ofStr "mar", ofStr "Mar"), (ofStr "apr", ofStr "Apr"),
   (ofStr "jun", ofStr "Jun"), (ofStr "jul", ofStr "Jul"),
   (ofStr "aug", ofStr "Aug"), (ofStr "sep", ofStr "Sep"),
   (ofStr "oct", ofStr "Oct"), (ofStr "nov", ofStr "Nov"),
   (ofStr "dec", ofStr "Dec")]

/-- bibfix.py:236-241, the numeric month table `num_map`. -/
def num_map : List (PyStr × PyStr) :=
  [(ofStr "1", ofStr "Jan"), (ofStr "01", ofStr "Jan"),
   (ofStr "2", ofStr "Feb"), (ofStr "02", ofStr "Feb"),
   (ofStr "3", ofStr "Mar"), (ofStr "03", ofStr "Mar"),
   (ofStr "4", ofStr "Apr"), (ofStr "04", ofStr "Apr"),
   (ofStr "5", ofStr "May"), (ofStr "05", ofStr "May"),
   (ofStr "6", ofStr "Jun"), (ofStr "06", ofStr "Jun"),
   (ofStr "7", ofStr "Jul"), (ofStr "07", ofStr "Jul"),
   (ofStr "8", ofStr "Aug"), (ofStr "08", ofStr "Aug"),
   (ofStr "9", ofStr "Sep"), (ofStr "09", ofStr "Sep"),
   (ofStr "10", ofStr "Oct"), (ofStr "11", ofStr "Nov"),
   (ofStr "12", ofStr "Dec")]

/-- First-match lookup in a table, `m in tbl` / `tbl[m]`. -/
def lookupStr (tbl : List (PyStr × PyStr)) (k : PyStr) : Option PyStr :=
  (tbl.find? (fun p => p.1 == k)).map (·.2)

/-- bibfix.py:235-247: normalization applied to a month value: strip and
lowercase, then the `MONTHS` table, then `num_map`, else `.capitalize()`. -/
def monthFix (v : PyStr) : PyStr :=
  let m := pyLower (pyStrip v)
  match lookupStr MONTHS m with
  | some r => r
  | none =>
    match lookupStr num_map m with
    | some r => r
    | none => pyCapitalize m

/-- The abbreviation configuration (`abbreviations.json`):
`journal_abbreviations` maps an abbreviation to its full name,
`conference_abbreviations` maps an abbreviation to its full-name
variants.  The Python value is a dict or `None`; an empty dict is falsy
in Python, but with no table rows no replacement can fire, so it behaves
exactly like `none`. -/
structure Abbrevs where
  journal_table : List (PyStr × PyStr)
  conference_table : List (PyStr × List PyStr)

/-- The per-field copy loop of `clean_entry` (bibfix.py:225-231):
the output dict so far, the lowercased required names found, and the
`has_either` flag. -/
structure CopyState where
  cleaned : Dict
  found : List PyStr
  has_either : Bool

/-- One iteration of the copy loop (bibfix.py:225-231): with
`kl = p.1.lower()`, copy the field and mark it found when `kl` is
required, and raise `has_either` for an `author`/`editor` field of a
`book`/`proceedings` entry. -/
def copyStep (entry_type : PyStr) (required : List PyStr) (st : CopyState)
    (p : PyStr × PyStr) : CopyState :=
  { cleaned :=
      if required.contains (pyLower p.1) then dictSet st.cleaned p.1 p.2
      else st.cleaned,
    found :=
      if required.contains (pyLower p.1) then st.found.insert (pyLower p.1)
      else st.found,
    has_either :=
      st.has_either
        || ((entry_type == ofStr "book" || entry_type == ofStr "proceedings")
            && (pyLower p.1 == kauthor || pyLower p.1 == keditor)) }

/-- bibfix.py:233-247: if the key `'month'` is present, overwrite its
value with the normalized form. -/
def monthStage (d : Dict) : Dict :=
  match dictGet d kmonth with
  | some v => dictSet d kmonth (monthFix v)
  | none => d

/-- bibfix.py:249-251: recase the title unless the entry is a book. -/
def titleStage (no_cap : Bool) (entry_type : PyStr) (texc : List PyStr) (d : Dict) : Dict :=
  if no_cap && entry_type != ofStr "book" then
    match dictGet d ktitle with
    | some v => dictSet d ktitle (apply_title_no_cap v texc)
    | none => d
  else d

/-- bibfix.py:256-264: replace `journal` (when present and truthy) by the
first journal-table row whose full name has the same normalized form
(the `break` stops at the first match). -/
def journalStep (JA : List (PyStr × PyStr)) (d : Dict) : Dict :=
  match dictGet d kjournal with
  | some v =>
    if v.isEmpty then d
    else
      match JA.find? (fun p => normalize_string v == normalize_string p.2) with
      | some p => dictSet d kjournal p.1
      | none => d
  | none => d

/-- The shared shape of the two conference-table loops over `booktitle`
(bibfix.py:266-273 and 277-285): for each row whose condition holds of
the original booktitle value, overwrite `booktitle` with the row's
abbreviation.  The `break` in the source leaves only the inner loop over
the variants, so the outer loop continues and a later matching row
overwrites an earlier one; the condition is evaluated against the
booktitle value read before the loop. -/
def btReplace (cond : PyStr → PyStr × List PyStr → Bool)
    (CA : List (PyStr × List PyStr)) (d : Dict) : Dict :=
  match dictGet d kbooktitle with
  | some w =>
    if w.isEmpty then d
    else
      CA.foldl (fun acc p => if cond w p then dictSet acc kbooktitle p.1 else acc) d
  | none => d

/-- bibfix.py:270-271: a conference row matches in the `article` arm when
some variant's normalized form equals the normalized booktitle. -/
def btExactCond (w : PyStr) (p : PyStr × List PyStr) : Bool :=
  p.2.any (fun full => normalize_string w == normalize_string full)

/-- bibfix.py:281-283: a conference row matches in the `inproceedings`
arm when, for some variant, the normalized abbreviation or that
normalized variant is a substring of the normalized booktitle. -/
def btSubCond (w : PyStr) (p : PyStr × List PyStr) : Bool :=
  p.2.any (fun full =>
    strContains (normalize_string w) (normalize_string p.1)
      || strContains (normalize_string w) (normalize_string full))

/-- bibfix.py:256-273, the `article` arm of the abbreviation block. -/
def abbrevArticle (A : Abbrevs) (d : Dict) : Dict :=
  btReplace btExactCond A.conference_table (journalStep A.journal_table d)

/-- bibfix.py:275-285, the `inproceedings` arm. -/
def abbrevInproc (A : Abbrevs) (d : Dict) : Dict :=
  btReplace btSubCond A.conference_table d

/-- bibfix.py:253-285: the abbreviation block runs when `minimal` is set
and an abbreviation table was given. -/
def abbrevStage (minimal : Bool) (abbreviations : Option Abbrevs)
    (entry_type : PyStr) (d : Dict) : Dict :=
  if minimal then
    match abbreviations with
    | some A =>
      if entry_type == ofStr "article" then abbrevArticle A d
      else if entry_type == ofStr "inproceedings" then abbrevInproc A d
      else d
    | none => d
  else d

/-- bibfix.py:287-288: truncate the author list when the key `'author'`
is present. -/
def authorStage (max_authors : Int) (d : Dict) : Dict :=
  match dictGet d kauthor with
  | some v => dictSet d kauthor (truncate_authors v max_authors)
  | none => d

/-- bibfix.py:291-296: for `book`/`proceedings`, either drop `author` and
`editor` from the missing set or add the literal marker. -/
def missingFix (entry_type : PyStr) (has_either : Bool) (missing : List PyStr) : List PyStr :=
  if entry_type == ofStr "book" || entry_type == ofStr "proceedings" then
    if has_either then missing.filter (fun f => !(f == kauthor || f == keditor))
    else missing ++ [ofStr "author or editor"]
  else missing

/-- Lexicographic comparison of code-point strings, Python `<=` on
strings. -/
def lexLe : PyStr → PyStr → Bool
  | [], _ => true
  | _ :: _, [] => false
  | a :: s, b :: t => a < b || (a == b && lexLe s t)

/-- Insertion sort by `lexLe`, Python `sorted` on distinct strings. -/
def insertSorted (x : PyStr) : List PyStr → List PyStr
  | [] => [x]
  | y :: t => if lexLe x y then x :: y :: t else y :: insertSorted x t

/-- Python `sorted`. -/
def sortStr (l : List PyStr) : List PyStr := l.foldr insertSorted []

/-- bibfix.py:297-299: the warning list, one string when the missing set
is non-empty: `Entry '<id>' missing: <sorted, comma-joined>`. -/
def warningsOf (entry_id : PyStr) (missing : List PyStr) : List PyStr :=
  if missing.isEmpty then []
  else [ofStr "Entry '" ++ entry_id ++ ofStr "' missing: "
          ++ joinSep (ofStr ", ") (sortStr missing)]

/-- bibfix.py:214-300, `clean_entry`. -/
def clean_entry (entry : Dict) (max_authors : Int) (minimal : Bool)
    (abbreviations : Option Abbrevs) (no_cap : Bool)
    (title_exceptions : Option (List PyStr)) : Dict × List PyStr :=
  let entry_type := pyLower (dictGetD entry kENTRYTYPE [])
  let entry_id := dictGetD entry kID (ofStr "<UNKNOWN>")
  let cleaned0 : Dict :=
    [(kENTRYTYPE, dictGetD entry kENTRYTYPE (ofStr "misc")), (kID, entry_id)]
  let required := ESSENTIAL_FIELDS entry_type
  let st := entry.foldl (copyStep entry_type required) ⟨cleaned0, [], false⟩
  let d1 := monthStage st.cleaned
  let d2 := titleStage no_cap entry_type (title_exceptions.getD []) d1
  let d3 := abbrevStage minimal abbreviations entry_type d2
  let d4 := authorStage max_authors d3
  let missing := missingFix entry_type st.has_either
    (required.filter (fun f => !(st.found.contains f)))
  (d4, warningsOf entry_id missing)

/-- Spec-side characterization (spec §4.5): the missing set computed
directly from the input record — `missing = required - found`, where a
required name is found exactly when some input field name lowercases to
it; for `book`/`proceedings`, drop `author` and `editor` when either
appeared among the input's field names, else add the literal marker
`"author or editor"`.  Compared against `clean_entry`'s fold in C5. -/
def missingSpec (entry : Dict) : List PyStr :=
  if pyLower (dictGetD entry kENTRYTYPE []) == ofStr "book"
      || pyLower (dictGetD entry kENTRYTYPE []) == ofStr "proceedings" then
    if entry.any (fun p => pyLower p.1 == kauthor || pyLower p.1 == keditor) then
      ((ESSENTIAL_FIELDS (pyLower (dictGetD entry kENTRYTYPE []))).filter
        (fun f => !(entry.any (fun p => pyLower p.1 == f)))).filter
        (fun f => !(f == kauthor || f == keditor))
    else
      ((ESSENTIAL_FIELDS (pyLower (dictGetD entry kENTRYTYPE []))).filter
        (fun f => !(entry.any (fun p => pyLower p.1 == f))))
        ++ [ofStr "author or editor"]
  else
    (ESSENTIAL_FIELDS (pyLower (dictGetD entry kENTRYTYPE []))).filter
      (fun f => !(entry.any (fun p => pyLower p.1 == f)))

/-- Spec-side characterization (spec §4.5): the warning list — exactly
one string `Entry '<id>' missing: <sorted, comma-joined>` when the
missing set is non-empty, none otherwise. -/
def warningsSpec (entry : Dict) : List PyStr :=
  if (missingSpec entry).isEmpty then []
  else [ofStr "Entry '" ++ dictGetD entry kID (ofStr "<UNKNOWN>") ++ ofStr "' missing: "
          ++ joinSep (ofStr ", ") (sortStr (missingSpec entry))]

/-- The twelve entry types listed in `ESSENTIAL_FIELDS` (bibfix.py:53-66). -/
def listedTypes : List PyStr :=
  [ofStr "article", ofStr "book", ofStr "incollection", ofStr "inproceedings",
   ofStr "proceedings", ofStr "booklet", ofStr "manual", ofStr "techreport",
   ofStr "mastersthesis", ofStr "phdthesis", ofStr "misc", ofStr "unpublished"]

/-- The value of `capitalize_next` after the loop of `apply_title_no_cap`
has consumed the given chunks, starting from `cap`. -/
def stateAfter (E : List PyStr) : List PyStr → Bool → Bool
  | [], cap => cap
  | chunk :: rest, cap =>
    if chunk.isEmpty then stateAfter E rest cap
    else if pyIsSpace chunk then stateAfter E rest cap
    else if !(sanitizeChunk chunk).isEmpty then stateAfter E rest false
    else stateAfter E rest (if endsSentence chunk then true else cap)

/-- `processChunks` with empty chunks kept as empty strings instead of
skipped.  Appending an empty string changes nothing, so its flattening
agrees with `processChunks` (lemma `processChunksK_flatten`); unlike
`processChunks` it is length-preserving, which the structure proofs use. -/
def processChunksK (E : List PyStr) : List PyStr → Bool → List PyStr
  | [], _ => []
  | chunk :: rest, cap =>
    if chunk.isEmpty then [] :: processChunksK E rest cap
    else if pyIsSpace chunk then chunk :: processChunksK E rest cap
    else if !(sanitizeChunk chunk).isEmpty then
      recaseWord E cap chunk :: processChunksK E rest false
    else
      chunk :: processChunksK E rest (if endsSentence chunk then true else cap)

/-- Character-level effect of the recasing transforms: a character is
kept, or is an alphabetic character mapped to its upper or lower form.
Such a change never alters whether a character is whitespace, a letter,
a digit, or what it lowercases to. -/
def CharIso (a b : Nat) : Prop :=
  b = a ∨ (isAlphaN a = true ∧ (b = toUpperN a ∨ b = toLowerN a))

/-- Chunkwise `CharIso`. -/
def ChunkIso (v w : PyStr) : Prop := List.Forall₂ CharIso v w

/-! ### Association-list (Python dict) lemmas -/

theorem dictGet_nil (k : PyStr) : dictGet [] k = none := rfl

theorem dictGet_cons_eq {k : PyStr} (v : PyStr) (d : Dict) :
    dictGet ((k, v) :: d) k = some v := by
  simp [dictGet, List.find?]

theorem dictGet_cons_ne {k' k : PyStr} (v : PyStr) (d : Dict) (h : k' ≠ k) :
    dictGet ((k', v) :: d) k = dictGet d k := by
  have hb : (k' == k) = false := by simpa using h
  simp [dictGet, List.find?, hb]

theorem dictGet_map_over_eq (d : Dict) (k v : PyStr) (h : dictHas d k = true) :
    dictGet (d.map (fun p => if p.1 == k then (k, v) else p)) k = some v := by
  induction d with
  | nil => simp [dictHas] at h
  | cons p rest ih =>
    by_cases hk : (p.1 == k) = true
    · simp [dictGet, List.find?, hk]
    · have h' : dictHas rest k = true := by
        simpa [dictHas, hk] using h
      simpa [dictGet, List.find?, hk] using ih h'

theorem dictGet_map_over_ne (d : Dict) {k' k : PyStr} (v : PyStr) (h : k' ≠ k) :
    dictGet (d.map (fun p => if p.1 == k' then (k', v) else p)) k = dictGet d k := by
  induction d with
  | nil => simp
  | cons p rest ih =>
    by_cases hk : (p.1 == k') = true
    · have hp1 : p.1 = k' := by simpa using hk
      have hpk : (p.1 == k) = false := by simp [hp1]; exact h
      have hk'k : ((k' : PyStr) == k) = false := by simpa using h
      simpa [dictGet, List.find?, hk, hpk, hk'k] using ih
    · by_cases hpk : (p.1 == k) = true
      · simp [dictGet, List.find?, hk, hpk]
      · simpa [dictGet, List.find?, hk, hpk] using ih

theorem find?_append_none {α : Type} {p : α → Bool} {l₁ l₂ : List α}
    (h : l₁.find? p = none) : (l₁ ++ l₂).find? p = l₂.find? p := by
  induction l₁ with
  | nil => simp
  | cons a rest ih =>
    by_cases ha : p a = true
    · simp [List.find?, ha] at h
    · simp only [List.find?, ha] at h
      simpa [List.find?, ha] using ih h

theorem find?_append_some {α : Type} {p : α → Bool} {l₁ l₂ : List α} {a : α}
    (h : l₁.find? p = some a) : (l₁ ++ l₂).find? p = some a := by
  induction l₁ with
  | nil => simp at h
  | cons b rest ih =>
    by_cases hb : p b = true
    · simp only [List.find?, hb] at h ⊢
      exact h
    · simp only [List.find?, hb] at h ⊢
      exact ih h

theorem dictGet_dictSet_eq (d : Dict) (k v : PyStr) :
    dictGet (dictSet d k v) k = some v := by
  unfold dictSet
  split
  · next h => exact dictGet_map_over_eq d k v h
  · next h =>
    have h' : dictHas d k = false := by simpa using h
    have hnone : List.find? (fun p => p.1 == k) d = none := by
      rw [List.find?_eq_none]
      intro p hp hc
      have htrue : dictHas d k = true := List.any_eq_true.mpr ⟨p, hp, hc⟩
      rw [h'] at htrue
      exact Bool.false_ne_true htrue
    simp [dictGet, find?_append_none hnone, List.find?]

theorem dictGet_dictSet_ne (d : Dict) {k' k : PyStr} (v : PyStr) (h : k' ≠ k) :
    dictGet (dictSet d k' v) k = dictGet d k := by
  unfold dictSet
  split
  · exact dictGet_map_over_ne d v h
  · unfold dictGet
    cases hf : List.find? (fun p => p.1 == k) d with
    | none =>
      have hb : (k' == k) = false := by simpa using h
      simp [find?_append_none hf, List.find?, hb]
    | some a => simp [find?_append_some hf]

theorem mem_dictSet {d : Dict} {k v : PyStr} {q : PyStr × PyStr}
    (hq : q ∈ dictSet d k v) : q = (k, v) ∨ q ∈ d := by
  unfold dictSet at hq
  split at hq
  · rcases List.mem_map.mp hq with ⟨p, hp, hpq⟩
    by_cases hk : (p.1 == k) = true
    · simp only [if_pos hk] at hpq
      exact Or.inl hpq.symm
    · simp only [if_neg hk] at hpq
      exact Or.inr (hpq ▸ hp)
  · rcases List.mem_append.mp hq with h | h
    · exact Or.inr h
    · simp only [List.mem_singleton] at h
      exact Or.inl h

theorem dictHas_of_get {d : Dict} {k w : PyStr} (hget : dictGet d k = some w) :
    dictHas d k = true := by
  rcases Option.map_eq_some'.mp hget with ⟨q, hq, _⟩
  have hmem : q ∈ d := List.mem_of_find?_eq_some hq
  have hqk : (q.1 == k) = true := by simpa using List.find?_some hq
  exact List.any_eq_true.mpr ⟨q, hmem, hqk⟩

/-- Overwriting a key that is present does not create any new key. -/
theorem mem_dictSet_of_get {d : Dict} {k w v : PyStr} {q : PyStr × PyStr}
    (hget : dictGet d k = some w) (hq : q ∈ dictSet d k v) :
    ∃ p ∈ d, q.1 = p.1 := by
  rcases mem_dictSet hq with h | h
  · subst h
    rcases Option.map_eq_some'.mp hget with ⟨r, hr, _⟩
    refine ⟨r, List.mem_of_find?_eq_some hr, ?_⟩
    have hrk : (r.1 == k) = true := by simpa using List.find?_some hr
    exact (beq_iff_eq.mp hrk).symm
  · exact ⟨q, h, rfl⟩

theorem dictHas_dictSet (d : Dict) (k v : PyStr) :
    dictHas (dictSet d k v) k = true :=
  dictHas_of_get (dictGet_dictSet_eq d k v)

theorem dictGet_isSome_of_has {d : Dict} {k : PyStr} (h : dictHas d k = true) :
    ∃ w, dictGet d k = some w := by
  rcases List.any_eq_true.mp h with ⟨p, hp, hpk⟩
  cases hf : List.find? (fun q => q.1 == k) d with
  | none =>
    exact absurd hpk (by simpa using List.find?_eq_none.mp hf p hp)
  | some q => exact ⟨q.2, by simp [dictGet, hf]⟩

theorem dictHas_dictSet_mono {d : Dict} {k : PyStr} (k' v : PyStr)
    (h : dictHas d k = true) : dictHas (dictSet d k' v) k = true := by
  by_cases hk : k' = k
  · rw [hk]; exact dictHas_dictSet d k v
  · rcases dictGet_isSome_of_has h with ⟨w, hw⟩
    exact dictHas_of_get (by rw [dictGet_dictSet_ne d v hk]; exact hw)

/-! ### The copy loop of `clean_entry` (bibfix.py:225-231) -/

theorem copyStep_cleaned (t : PyStr) (req : List PyStr) (st : CopyState) (p : PyStr × PyStr) :
    (copyStep t req st p).cleaned =
      if req.contains (pyLower p.1) then dictSet st.cleaned p.1 p.2 else st.cleaned := rfl

theorem copyStep_found (t : PyStr) (req : List PyStr) (st : CopyState) (p : PyStr × PyStr) :
    (copyStep t req st p).found =
      if req.contains (pyLower p.1) then st.found.insert (pyLower p.1) else st.found := rfl

theorem copyStep_has_either (t : PyStr) (req : List PyStr) (st : CopyState) (p : PyStr × PyStr) :
    (copyStep t req st p).has_either =
      (st.has_either || ((t == ofStr "book" || t == ofStr "proceedings")
          && (pyLower p.1 == kauthor || pyLower p.1 == keditor))) := rfl

theorem contains_insert (l : List PyStr) (a b : PyStr) :
    (l.insert a).contains b = ((a == b) || l.contains b) := by
  by_cases hab : a = b
  · subst hab
    by_cases hal : a ∈ l
    · simp [List.insert_of_mem hal, hal]
    · simp [List.insert_of_not_mem hal]
  · by_cases hal : a ∈ l
    · simp [List.insert_of_mem hal, hab]
    · simp [List.insert_of_not_mem hal, hab, Ne.symm hab]

/-- After the copy loop, a lowercased field name was found exactly when
some input field both lowercases to it and is required. -/
theorem copy_found_contains (t : PyStr) (req : List PyStr) :
    ∀ (entry : Dict) (st : CopyState) (f : PyStr),
    ((entry.foldl (copyStep t req) st).found.contains f) =
      (st.found.contains f
        || entry.any (fun p => req.contains (pyLower p.1) && (pyLower p.1 == f))) := by
  intro entry
  induction entry with
  | nil => intro st f; simp
  | cons p rest ih =>
    intro st f
    rw [List.foldl_cons, ih]
    by_cases h1 : req.contains (pyLower p.1) = true
    · rw [copyStep_found, if_pos h1, contains_insert]
      simp only [List.any_cons, h1, Bool.true_and]
      cases hb : (pyLower p.1 == f) <;> cases st.found.contains f <;> simp
    · rw [copyStep_found, if_neg h1]
      have hmem : pyLower p.1 ∉ req := by simpa using h1
      simp [hmem]

/-- After the copy loop, `has_either` is set exactly when the type is
`book`/`proceedings` and some input field lowercases to `author` or
`editor`. -/
theorem copy_has_either (t : PyStr) (req : List PyStr) :
    ∀ (entry : Dict) (st : CopyState),
    (entry.foldl (copyStep t req) st).has_either =
      (st.has_either || ((t == ofStr "book" || t == ofStr "proceedings")
          && entry.any (fun p => pyLower p.1 == kauthor || pyLower p.1 == keditor))) := by
  intro entry
  induction entry with
  | nil => intro st; simp
  | cons p rest ih =>
    intro st
    rw [List.foldl_cons, ih, copyStep_has_either]
    cases st.has_either <;>
      cases hB : (t == ofStr "book" || t == ofStr "proceedings") <;>
      cases hp : (pyLower p.1 == kauthor || pyLower p.1 == keditor) <;>
      simp [hB, hp]

/-- Every key of the copy loop's output dict is a key of the initial
dict or a field whose lowercased name is required. -/
theorem copy_cleaned_keys (t : PyStr) (req : List PyStr) :
    ∀ (entry : Dict) (st : CopyState) (q : PyStr × PyStr),
    q ∈ (entry.foldl (copyStep t req) st).cleaned →
    (∃ p ∈ st.cleaned, q.1 = p.1) ∨ req.contains (pyLower q.1) = true := by
  intro entry
  induction entry with
  | nil => intro st q hq; exact Or.inl ⟨q, hq, rfl⟩
  | cons p rest ih =>
    intro st q hq
    rw [List.foldl_cons] at hq
    rcases ih _ q hq with h | h
    · rcases h with ⟨r, hr, hqr⟩
      rw [copyStep_cleaned] at hr
      by_cases h1 : req.contains (pyLower p.1) = true
      · rw [if_pos h1] at hr
        rcases mem_dictSet hr with h' | h'
        · subst h'
          right
          rw [hqr]
          exact h1
        · exact Or.inl ⟨r, h', hqr⟩
      · rw [if_neg h1] at hr
        exact Or.inl ⟨r, hr, hqr⟩
    · exact Or.inr h

/-- The copy loop keeps any key its running dict already has. -/
theorem copy_preserves_has (t : PyStr) (req : List PyStr) :
    ∀ (entry : Dict) (st : CopyState) (k : PyStr),
    dictHas st.cleaned k = true →
    dictHas (entry.foldl (copyStep t req) st).cleaned k = true := by
  intro entry
  induction entry with
  | nil => intro st k h; exact h
  | cons p rest ih =>
    intro st k h
    rw [List.foldl_cons]
    refine ih _ k ?_
    rw [copyStep_cleaned]
    by_cases h1 : req.contains (pyLower p.1) = true
    · rw [if_pos h1]; exact dictHas_dictSet_mono _ _ h
    · rw [if_neg h1]; exact h

/-- A required input field's key is present after the copy loop. -/
theorem copy_has_key (t : PyStr) (req : List PyStr) :
    ∀ (entry : Dict) (st : CopyState) (k v : PyStr),
    (k, v) ∈ entry → req.contains (pyLower k) = true →
    dictHas (entry.foldl (copyStep t req) st).cleaned k = true := by
  intro entry
  induction entry with
  | nil => intro st k v h _; exact absurd h (List.not_mem_nil _)
  | cons p rest ih =>
    intro st k v hmem hreq
    rw [List.foldl_cons]
    rcases List.mem_cons.mp hmem with h | h
    · refine copy_preserves_has t req rest _ k ?_
      rw [copyStep_cleaned, ← h, if_pos hreq]
      exact dictHas_dictSet _ _ _
    · exact ih _ k v h hreq

/-! ### Key tracking through the post-copy stages of `clean_entry` -/

theorem keys_monthStage {d : Dict} {q : PyStr × PyStr} (hq : q ∈ monthStage d) :
    ∃ p ∈ d, q.1 = p.1 := by
  unfold monthStage at hq
  cases hget : dictGet d kmonth with
  | none => rw [hget] at hq; exact ⟨q, hq, rfl⟩
  | some v => rw [hget] at hq; exact mem_dictSet_of_get hget hq

theorem keys_titleStage {nc : Bool} {t : PyStr} {texc : List PyStr} {d : Dict}
    {q : PyStr × PyStr} (hq : q ∈ titleStage nc t texc d) : ∃ p ∈ d, q.1 = p.1 := by
  unfold titleStage at hq
  split at hq
  · cases hget : dictGet d ktitle with
    | none => rw [hget] at hq; exact ⟨q, hq, rfl⟩
    | some v => rw [hget] at hq; exact mem_dictSet_of_get hget hq
  · exact ⟨q, hq, rfl⟩

/-- The shared shape of the two conference-abbreviation loops
(bibfix.py:266-285): a fold that conditionally overwrites `booktitle`. -/
theorem keys_btFold (cond : PyStr × List PyStr → Bool) :
    ∀ (CA : List (PyStr × List PyStr)) (d : Dict), dictHas d kbooktitle = true →
    dictHas (CA.foldl
        (fun acc p => if cond p then dictSet acc kbooktitle p.1 else acc) d) kbooktitle = true
    ∧ ∀ q ∈ CA.foldl
        (fun acc p => if cond p then dictSet acc kbooktitle p.1 else acc) d,
        ∃ p ∈ d, q.1 = p.1 := by
  intro CA
  induction CA with
  | nil => intro d h; exact ⟨h, fun q hq => ⟨q, hq, rfl⟩⟩
  | cons a rest ih =>
    intro d h
    rw [List.foldl_cons]
    by_cases hc : cond a = true
    · rw [if_pos hc]
      rcases ih (dictSet d kbooktitle a.1) (dictHas_dictSet d _ _) with ⟨h1, h2⟩
      refine ⟨h1, fun q hq => ?_⟩
      rcases h2 q hq with ⟨r, hr, hqr⟩
      rcases dictGet_isSome_of_has h with ⟨w, hw⟩
      rcases mem_dictSet_of_get hw hr with ⟨p, hp, hrp⟩
      exact ⟨p, hp, hqr.trans hrp⟩
    · rw [if_neg hc]
      exact ih d h

theorem get_btFold_ne (cond : PyStr × List PyStr → Bool) :
    ∀ (CA : List (PyStr × List PyStr)) (d : Dict) (k : PyStr), k ≠ kbooktitle →
    dictGet (CA.foldl
        (fun acc p => if cond p then dictSet acc kbooktitle p.1 else acc) d) k
      = dictGet d k := by
  intro CA
  induction CA with
  | nil => intro d k _; rfl
  | cons a rest ih =>
    intro d k hk
    rw [List.foldl_cons]
    by_cases hc : cond a = true
    · rw [if_pos hc, ih _ k hk, dictGet_dictSet_ne d _ (Ne.symm hk)]
    · rw [if_neg hc]; exact ih d k hk

theorem keys_journalStep {JA : List (PyStr × PyStr)} {d : Dict} {q : PyStr × PyStr}
    (hq : q ∈ journalStep JA d) : ∃ p ∈ d, q.1 = p.1 := by
  unfold journalStep at hq
  split at hq
  · next v hj =>
    split at hq
    · exact ⟨q, hq, rfl⟩
    · split at hq
      · exact mem_dictSet_of_get hj hq
      · exact ⟨q, hq, rfl⟩
  · exact ⟨q, hq, rfl⟩

theorem keys_btReplace {cond : PyStr → PyStr × List PyStr → Bool}
    {CA : List (PyStr × List PyStr)} {d : Dict} {q : PyStr × PyStr}
    (hq : q ∈ btReplace cond CA d) : ∃ p ∈ d, q.1 = p.1 := by
  unfold btReplace at hq
  split at hq
  · next w hb =>
    split at hq
    · exact ⟨q, hq, rfl⟩
    · exact (keys_btFold (cond w) CA d (dictHas_of_get hb)).2 q hq
  · exact ⟨q, hq, rfl⟩

theorem keys_abbrevArticle {A : Abbrevs} {d : Dict} {q : PyStr × PyStr}
    (hq : q ∈ abbrevArticle A d) : ∃ p ∈ d, q.1 = p.1 := by
  rcases keys_btReplace hq with ⟨r, hr, hqr⟩
  rcases keys_journalStep hr with ⟨p, hp, hrp⟩
  exact ⟨p, hp, hqr.trans hrp⟩

theorem keys_abbrevInproc {A : Abbrevs} {d : Dict} {q : PyStr × PyStr}
    (hq : q ∈ abbrevInproc A d) : ∃ p ∈ d, q.1 = p.1 :=
  keys_btReplace hq

theorem keys_abbrevStage {mi : Bool} {ab : Option Abbrevs} {t : PyStr} {d : Dict}
    {q : PyStr × PyStr} (hq : q ∈ abbrevStage mi ab t d) : ∃ p ∈ d, q.1 = p.1 := by
  unfold abbrevStage at hq
  split at hq
  · match ab, hq with
    | none, hq => exact ⟨q, hq, rfl⟩
    | some A, hq =>
      simp only at hq
      split at hq
      · exact keys_abbrevArticle hq
      · split at hq
        · exact keys_abbrevInproc hq
        · exact ⟨q, hq, rfl⟩
  · exact ⟨q, hq, rfl⟩

theorem keys_authorStage {ma : Int} {d : Dict} {q : PyStr × PyStr}
    (hq : q ∈ authorStage ma d) : ∃ p ∈ d, q.1 = p.1 := by
  unfold authorStage at hq
  split at hq
  · next v hget => exact mem_dictSet_of_get hget hq
  · exact ⟨q, hq, rfl⟩

theorem get_monthStage_ne {d : Dict} {k : PyStr} (h : k ≠ kmonth) :
    dictGet (monthStage d) k = dictGet d k := by
  unfold monthStage
  split
  · exact dictGet_dictSet_ne d _ (Ne.symm h)
  · rfl

theorem get_monthStage_eq {d : Dict} {v : PyStr} (h : dictGet d kmonth = some v) :
    dictGet (monthStage d) kmonth = some (monthFix v) := by
  unfold monthStage
  rw [h]
  exact dictGet_dictSet_eq d kmonth (monthFix v)

theorem get_titleStage_ne {nc : Bool} {t : PyStr} {texc : List PyStr} {d : Dict}
    {k : PyStr} (h : k ≠ ktitle) : dictGet (titleStage nc t texc d) k = dictGet d k := by
  unfold titleStage
  split
  · split
    · exact dictGet_dictSet_ne d _ (Ne.symm h)
    · rfl
  · rfl

theorem get_journalStep_ne {JA : List (PyStr × PyStr)} {d : Dict} {k : PyStr}
    (h : k ≠ kjournal) : dictGet (journalStep JA d) k = dictGet d k := by
  unfold journalStep
  split
  · split
    · rfl
    · split
      · exact dictGet_dictSet_ne d _ (Ne.symm h)
      · rfl
  · rfl

theorem get_btReplace_ne {cond : PyStr → PyStr × List PyStr → Bool}
    {CA : List (PyStr × List PyStr)} {d : Dict} {k : PyStr} (h : k ≠ kbooktitle) :
    dictGet (btReplace cond CA d) k = dictGet d k := by
  unfold btReplace
  split
  · next w _ =>
    split
    · rfl
    · exact get_btFold_ne (cond w) CA d k h
  · rfl

theorem get_abbrevStage_ne {mi : Bool} {ab : Option Abbrevs} {t : PyStr} {d : Dict}
    {k : PyStr} (h1 : k ≠ kjournal) (h2 : k ≠ kbooktitle) :
    dictGet (abbrevStage mi ab t d) k = dictGet d k := by
  unfold abbrevStage
  split
  · match ab with
    | none => rfl
    | some A =>
      simp only
      split
      · unfold abbrevArticle
        rw [get_btReplace_ne h2, get_journalStep_ne h1]
      · split
        · unfold abbrevInproc
          exact get_btReplace_ne h2
        · rfl
  · rfl

theorem get_authorStage_ne {ma : Int} {d : Dict} {k : PyStr} (h : k ≠ kauthor) :
    dictGet (authorStage ma d) k = dictGet d k := by
  unfold authorStage
  split
  · exact dictGet_dictSet_ne d _ (Ne.symm h)
  · rfl

/-- Every key of the cleaned record is `ENTRYTYPE`, `ID`, or lowercases
to a member of the entry type's required set. -/
theorem clean_entry_keys (entry : Dict) (ma : Int) (mi : Bool) (ab : Option Abbrevs)
    (nc : Bool) (te : Option (List PyStr)) :
    ∀ q ∈ (clean_entry entry ma mi ab nc te).1,
    q.1 = kENTRYTYPE ∨ q.1 = kID
      ∨ (ESSENTIAL_FIELDS (pyLower (dictGetD entry kENTRYTYPE []))).contains (pyLower q.1)
          = true := by
  intro q hq
  have hq' : q ∈ authorStage ma (abbrevStage mi ab (pyLower (dictGetD entry kENTRYTYPE []))
      (titleStage nc (pyLower (dictGetD entry kENTRYTYPE [])) (te.getD [])
        (monthStage (entry.foldl
          (copyStep (pyLower (dictGetD entry kENTRYTYPE []))
            (ESSENTIAL_FIELDS (pyLower (dictGetD entry kENTRYTYPE []))))
          ⟨[(kENTRYTYPE, dictGetD entry kENTRYTYPE (ofStr "misc")),
            (kID, dictGetD entry kID (ofStr "<UNKNOWN>"))], [], false⟩).cleaned))) := hq
  rcases keys_authorStage hq' with ⟨q3, hq3, e4⟩
  rcases keys_abbrevStage hq3 with ⟨q2, hq2, e3⟩
  rcases keys_titleStage hq2 with ⟨q1, hq1, e2⟩
  rcases keys_monthStage hq1 with ⟨q0, hq0, e1⟩
  have eq0 : q.1 = q0.1 := e4.trans (e3.trans (e2.trans e1))
  rcases copy_cleaned_keys _ _ entry _ q0 hq0 with ⟨p, hp, e0⟩ | hreq
  · rcases List.mem_cons.mp hp with h | h
    · left; rw [eq0, e0, h]
    · right; left
      rw [List.mem_singleton] at h
      rw [eq0, e0, h]
  · right; right
    rw [eq0]
    exact hreq

theorem has_monthStage_mono {d : Dict} {k : PyStr} (h : dictHas d k = true) :
    dictHas (monthStage d) k = true := by
  unfold monthStage
  split
  · exact dictHas_dictSet_mono _ _ h
  · exact h

theorem has_titleStage_mono {nc : Bool} {t : PyStr} {texc : List PyStr} {d : Dict}
    {k : PyStr} (h : dictHas d k = true) : dictHas (titleStage nc t texc d) k = true := by
  unfold titleStage
  split
  · split
    · exact dictHas_dictSet_mono _ _ h
    · exact h
  · exact h

theorem has_btFold_mono (cond : PyStr × List PyStr → Bool) :
    ∀ (CA : List (PyStr × List PyStr)) (d : Dict) (k : PyStr), dictHas d k = true →
    dictHas (CA.foldl
        (fun acc p => if cond p then dictSet acc kbooktitle p.1 else acc) d) k = true := by
  intro CA
  induction CA with
  | nil => intro d k h; exact h
  | cons a rest ih =>
    intro d k h
    rw [List.foldl_cons]
    by_cases hc : cond a = true
    · rw [if_pos hc]; exact ih _ k (dictHas_dictSet_mono _ _ h)
    · rw [if_neg hc]; exact ih d k h

theorem has_btReplace_mono {cond : PyStr → PyStr × List PyStr → Bool}
    {CA : List (PyStr × List PyStr)} {d : Dict} {k : PyStr}
    (h : dictHas d k = true) : dictHas (btReplace cond CA d) k = true := by
  unfold btReplace
  split
  · next w _ =>
    split
    · exact h
    · exact has_btFold_mono (cond w) CA d k h
  · exact h

theorem has_journalStep_mono {JA : List (PyStr × PyStr)} {d : Dict} {k : PyStr}
    (h : dictHas d k = true) : dictHas (journalStep JA d) k = true := by
  unfold journalStep
  split
  · split
    · exact h
    · split
      · exact dictHas_dictSet_mono _ _ h
      · exact h
  · exact h

theorem has_abbrevStage_mono {mi : Bool} {ab : Option Abbrevs} {t : PyStr} {d : Dict}
    {k : PyStr} (h : dictHas d k = true) : dictHas (abbrevStage mi ab t d) k = true := by
  unfold abbrevStage
  split
  · match ab with
    | none => exact h
    | some A =>
      simp only
      split
      · exact has_btReplace_mono (has_journalStep_mono h)
      · split
        · exact has_btReplace_mono h
        · exact h
  · exact h

theorem has_authorStage_mono {ma : Int} {d : Dict} {k : PyStr}
    (h : dictHas d k = true) : dictHas (authorStage ma d) k = true := by
  unfold authorStage
  split
  · exact dictHas_dictSet_mono _ _ h
  · exact h

/-- A required input field whose key is already lowercase keeps its key
in the final cleaned record. -/
theorem clean_entry_has_key (entry : Dict) (ma : Int) (mi : Bool) (ab : Option Abbrevs)
    (nc : Bool) (te : Option (List PyStr)) (k v : PyStr)
    (hmem : (k, v) ∈ entry)
    (hreq : (ESSENTIAL_FIELDS (pyLower (dictGetD entry kENTRYTYPE []))).contains
        (pyLower k) = true) :
    dictHas (clean_entry entry ma mi ab nc te).1 k = true := by
  show dictHas (authorStage ma (abbrevStage mi ab (pyLower (dictGetD entry kENTRYTYPE []))
      (titleStage nc (pyLower (dictGetD entry kENTRYTYPE [])) (te.getD [])
        (monthStage (entry.foldl
          (copyStep (pyLower (dictGetD entry kENTRYTYPE []))
            (ESSENTIAL_FIELDS (pyLower (dictGetD entry kENTRYTYPE []))))
          ⟨[(kENTRYTYPE, dictGetD entry kENTRYTYPE (ofStr "misc")),
            (kID, dictGetD entry kID (ofStr "<UNKNOWN>"))], [], false⟩).cleaned)))) k = true
  exact has_authorStage_mono (has_abbrevStage_mono (has_titleStage_mono
    (has_monthStage_mono (copy_has_key _ _ entry _ k v hmem hreq))))

/-- C1: for every input record and every combination of the options, each
field of the cleaned record is `ENTRYTYPE`, `ID`, or a field whose
lowercased name is in the entry type's required set — nothing else
survives `clean_entry`. -/
theorem C1_cleaned_keys_subset (entry : Dict) (ma : Int) (mi : Bool)
    (ab : Option Abbrevs) (nc : Bool) (te : Option (List PyStr)) :
    ∀ q ∈ (clean_entry entry ma mi ab nc te).1,
    q.1 = kENTRYTYPE ∨ q.1 = kID
      ∨ (ESSENTIAL_FIELDS (pyLower (dictGetD entry kENTRYTYPE []))).contains (pyLower q.1)
          = true :=
  clean_entry_keys entry ma mi ab nc te

/-- Witness for C1 at a concrete record: the copied `title` field of an
`article` lowercases into the required set. -/
theorem C1_cleaned_keys_subset_witness :
    (ktitle, ofStr "T").1 = kENTRYTYPE ∨ (ktitle, ofStr "T").1 = kID
      ∨ (ESSENTIAL_FIELDS (pyLower (dictGetD
            [(kENTRYTYPE, ofStr "article"), (kID, ofStr "x"), (ktitle, ofStr "T")]
            kENTRYTYPE []))).contains (pyLower (ktitle, ofStr "T").1) = true :=
  C1_cleaned_keys_subset
    [(kENTRYTYPE, ofStr "article"), (kID, ofStr "x"), (ktitle, ofStr "T")]
    (-1) false none false none (ktitle, ofStr "T") (by decide)

theorem monthStage_no_month {d : Dict} (h : dictGet d kmonth = none) :
    monthStage d = d := by
  unfold monthStage
  rw [h]

theorem titleStage_no_title {nc : Bool} {t : PyStr} {texc : List PyStr} {d : Dict}
    (h : dictGet d ktitle = none) : titleStage nc t texc d = d := by
  unfold titleStage
  split
  · rw [h]
  · rfl

theorem abbrevStage_other {mi : Bool} {ab : Option Abbrevs} {t : PyStr} {d : Dict}
    (h1 : (t == ofStr "article") = false) (h2 : (t == ofStr "inproceedings") = false) :
    abbrevStage mi ab t d = d := by
  unfold abbrevStage
  split
  · match ab with
    | none => rfl
    | some A => simp [h1, h2]
  · rfl

theorem authorStage_no_author {ma : Int} {d : Dict} (h : dictGet d kauthor = none) :
    authorStage ma d = d := by
  unfold authorStage
  rw [h]

theorem get_pair_ne (x y : PyStr) {k : PyStr} (h1 : kENTRYTYPE ≠ k) (h2 : kID ≠ k) :
    dictGet [(kENTRYTYPE, x), (kID, y)] k = none := by
  rw [dictGet_cons_ne _ _ h1, dictGet_cons_ne _ _ h2, dictGet_nil]

/-- C9: a record whose lowercased entry type is not one of the twelve
listed types (including a record with no entry type, whose type
lowercases to the empty string) is cleaned to exactly the `ENTRYTYPE`
and `ID` fields, with no warnings. -/
theorem C9_unlisted_type (entry : Dict) (ma : Int) (mi : Bool) (ab : Option Abbrevs)
    (nc : Bool) (te : Option (List PyStr))
    (h : pyLower (dictGetD entry kENTRYTYPE []) ∉ listedTypes) :
    (clean_entry entry ma mi ab nc te).1 =
      [(kENTRYTYPE, dictGetD entry kENTRYTYPE (ofStr "misc")),
       (kID, dictGetD entry kID (ofStr "<UNKNOWN>"))]
    ∧ (clean_entry entry ma mi ab nc te).2 = [] := by
  have hne : ∀ s ∈ listedTypes, pyLower (dictGetD entry kENTRYTYPE []) ≠ s :=
    fun s hs he => h (by rw [he]; exact hs)
  have hEF : ESSENTIAL_FIELDS (pyLower (dictGetD entry kENTRYTYPE [])) = [] := by
    unfold ESSENTIAL_FIELDS
    repeat rw [if_neg (hne _ (by decide))]
  have hBook : (pyLower (dictGetD entry kENTRYTYPE []) == ofStr "book") = false := by
    simpa using hne (ofStr "book") (by decide)
  have hProc : (pyLower (dictGetD entry kENTRYTYPE []) == ofStr "proceedings") = false := by
    simpa using hne (ofStr "proceedings") (by decide)
  have hArt : (pyLower (dictGetD entry kENTRYTYPE []) == ofStr "article") = false := by
    simpa using hne (ofStr "article") (by decide)
  have hInp : (pyLower (dictGetD entry kENTRYTYPE []) == ofStr "inproceedings") = false := by
    simpa using hne (ofStr "inproceedings") (by decide)
  have hstep : ∀ (st : CopyState) (p : PyStr × PyStr),
      copyStep (pyLower (dictGetD entry kENTRYTYPE [])) [] st p = st := by
    intro st p
    unfold copyStep
    simp [hBook, hProc]
  have hfold : ∀ (l : Dict) (st : CopyState),
      l.foldl (copyStep (pyLower (dictGetD entry kENTRYTYPE [])) []) st = st := by
    intro l
    induction l with
    | nil => intro st; rfl
    | cons p rest ih => intro st; rw [List.foldl_cons, hstep]; exact ih _
  have e1 : (entry.foldl
      (copyStep (pyLower (dictGetD entry kENTRYTYPE []))
        (ESSENTIAL_FIELDS (pyLower (dictGetD entry kENTRYTYPE []))))
      ⟨[(kENTRYTYPE, dictGetD entry kENTRYTYPE (ofStr "misc")),
        (kID, dictGetD entry kID (ofStr "<UNKNOWN>"))], [], false⟩).cleaned =
      [(kENTRYTYPE, dictGetD entry kENTRYTYPE (ofStr "misc")),
       (kID, dictGetD entry kID (ofStr "<UNKNOWN>"))] := by
    rw [hEF, hfold]
  constructor
  · show authorStage ma (abbrevStage mi ab (pyLower (dictGetD entry kENTRYTYPE []))
        (titleStage nc (pyLower (dictGetD entry kENTRYTYPE [])) (te.getD [])
          (monthStage (entry.foldl
            (copyStep (pyLower (dictGetD entry kENTRYTYPE []))
              (ESSENTIAL_FIELDS (pyLower (dictGetD entry kENTRYTYPE []))))
            ⟨[(kENTRYTYPE, dictGetD entry kENTRYTYPE (ofStr "misc")),
              (kID, dictGetD entry kID (ofStr "<UNKNOWN>"))], [], false⟩).cleaned))) = _
    rw [e1, monthStage_no_month (get_pair_ne _ _ (by decide) (by decide)),
      titleStage_no_title (get_pair_ne _ _ (by decide) (by decide)),
      abbrevStage_other hArt hInp,
      authorStage_no_author (get_pair_ne _ _ (by decide) (by decide))]
  · show warningsOf (dictGetD entry kID (ofStr "<UNKNOWN>"))
        (missingFix (pyLower (dictGetD entry kENTRYTYPE []))
          (entry.foldl
            (copyStep (pyLower (dictGetD entry kENTRYTYPE []))
              (ESSENTIAL_FIELDS (pyLower (dictGetD entry kENTRYTYPE []))))
            ⟨[(kENTRYTYPE, dictGetD entry kENTRYTYPE (ofStr "misc")),
              (kID, dictGetD entry kID (ofStr "<UNKNOWN>"))], [], false⟩).has_either
          ((ESSENTIAL_FIELDS (pyLower (dictGetD entry kENTRYTYPE []))).filter
            (fun f => !((entry.foldl
              (copyStep (pyLower (dictGetD entry kENTRYTYPE []))
                (ESSENTIAL_FIELDS (pyLower (dictGetD entry kENTRYTYPE []))))
              ⟨[(kENTRYTYPE, dictGetD entry kENTRYTYPE (ofStr "misc")),
                (kID, dictGetD entry kID (ofStr "<UNKNOWN>"))], [], false⟩).found.contains f)))) = []
    rw [hEF]
    unfold missingFix
    rw [hBook, hProc]
    simp [warningsOf]

/-- Witness for C9 at a concrete record with an unlisted entry type. -/
theorem C9_unlisted_type_witness :
    (clean_entry [(kENTRYTYPE, ofStr "webpage"), (kID, ofStr "x"), (ktitle, ofStr "T")]
        (-1) false none false none).1 =
      [(kENTRYTYPE, dictGetD [(kENTRYTYPE, ofStr "webpage"), (kID, ofStr "x"),
          (ktitle, ofStr "T")] kENTRYTYPE (ofStr "misc")),
       (kID, dictGetD [(kENTRYTYPE, ofStr "webpage"), (kID, ofStr "x"),
          (ktitle, ofStr "T")] kID (ofStr "<UNKNOWN>"))]
    ∧ (clean_entry [(kENTRYTYPE, ofStr "webpage"), (kID, ofStr "x"), (ktitle, ofStr "T")]
        (-1) false none false none).2 = [] :=
  C9_unlisted_type [(kENTRYTYPE, ofStr "webpage"), (kID, ofStr "x"), (ktitle, ofStr "T")]
    (-1) false none false none (by decide)

/-- C2 is false on the code: a `book` record's `editor` field and a
`proceedings` record's `author` field are not copied into the cleaned
output (`editor` is not in `ESSENTIAL_FIELDS['book']`, `author` is not in
`ESSENTIAL_FIELDS['proceedings']`), even though the claim says they are. -/
theorem C2_counterexample :
    dictGet (clean_entry [(kENTRYTYPE, ofStr "book"), (kID, ofStr "k"),
        (keditor, ofStr "Smith")] (-1) false none false none).1 keditor = none
    ∧ dictGet (clean_entry [(kENTRYTYPE, ofStr "proceedings"), (kID, ofStr "k"),
        (kauthor, ofStr "Smith")] (-1) false none false none).1 kauthor = none := by
  constructor
  · decide
  · decide

/-- C2 (amended): for `book` records, the required `author` field is
copied when present, but an `editor` field never survives into the
output; symmetrically for `proceedings` records `editor` is copied and
`author` never survives.  The non-required half of the author/editor pair
only suppresses the missing-field marker, it is not copied. -/
theorem C2_amended_author_editor (entry : Dict) (ma : Int) (mi : Bool)
    (ab : Option Abbrevs) (nc : Bool) (te : Option (List PyStr)) :
    (pyLower (dictGetD entry kENTRYTYPE []) = ofStr "book" →
      (∀ q ∈ (clean_entry entry ma mi ab nc te).1, pyLower q.1 ≠ keditor)
      ∧ (∀ v, (kauthor, v) ∈ entry →
          dictHas (clean_entry entry ma mi ab nc te).1 kauthor = true))
    ∧ (pyLower (dictGetD entry kENTRYTYPE []) = ofStr "proceedings" →
      (∀ q ∈ (clean_entry entry ma mi ab nc te).1, pyLower q.1 ≠ kauthor)
      ∧ (∀ v, (keditor, v) ∈ entry →
          dictHas (clean_entry entry ma mi ab nc te).1 keditor = true)) := by
  constructor
  · intro ht
    constructor
    · intro q hq heq
      rcases clean_entry_keys entry ma mi ab nc te q hq with h | h | h
      · rw [h] at heq; exact absurd heq (by decide)
      · rw [h] at heq; exact absurd heq (by decide)
      · rw [ht, heq] at h; exact absurd h (by decide)
    · intro v hv
      exact clean_entry_has_key entry ma mi ab nc te kauthor v hv (by rw [ht]; decide)
  · intro ht
    constructor
    · intro q hq heq
      rcases clean_entry_keys entry ma mi ab nc te q hq with h | h | h
      · rw [h] at heq; exact absurd heq (by decide)
      · rw [h] at heq; exact absurd heq (by decide)
      · rw [ht, heq] at h; exact absurd h (by decide)
    · intro v hv
      exact clean_entry_has_key entry ma mi ab nc te keditor v hv (by rw [ht]; decide)

/-- Witness for the amended C2: a concrete `book` record with both
`author` and `editor`; `author` survives. -/
theorem C2_amended_author_editor_witness :
    dictHas (clean_entry [(kENTRYTYPE, ofStr "book"), (kID, ofStr "k"),
        (kauthor, ofStr "A"), (keditor, ofStr "E")] (-1) false none false none).1
      kauthor = true :=
  ((C2_amended_author_editor [(kENTRYTYPE, ofStr "book"), (kID, ofStr "k"),
      (kauthor, ofStr "A"), (keditor, ofStr "E")] (-1) false none false none).1
    (by decide)).2 (ofStr "A") (by decide)

/-! ### `truncate_authors` (bibfix.py:96-102) -/

theorem splitAnd_ne_nil : ∀ (s acc : PyStr), splitAnd s acc ≠ [] := by
  intro s acc
  induction s, acc using splitAnd.induct with
  | case1 acc => simp [splitAnd]
  | case2 rest acc ih => simp [splitAnd]
  | case3 c rest acc h ih =>
    rw [splitAnd]
    · exact ih
    · exact h

/-- C7 is false as stated: its second half says the output equals the
input whenever the limit is at most the name count, but a limit strictly
below the name count triggers truncation.  Concretely, `"A and B"` has
two names, the limit `1` is at most `2`, yet the output is
`"A and others"`, not the input. -/
theorem C7_counterexample :
    ((splitAnd (ofStr "A and B") []).map pyStrip).length = 2
    ∧ (1 : Int) ≤ 2
    ∧ truncate_authors (ofStr "A and B") 1 = ofStr "A and others"
    ∧ truncate_authors (ofStr "A and B") 1 ≠ ofStr "A and B" := by
  refine ⟨by decide, by decide, by decide, by decide⟩

/-- C7 (amended): a non-empty author string with more `' and '`-separated
names than a non-negative limit is truncated to the first `limit` trimmed
names joined by `' and '` followed by `' and others'`; and the output is
the input, byte for byte, when the limit is negative, the string is
empty, or the name count is at most the limit. -/
theorem C7_amended_truncation (authors : PyStr) (limit : Int) :
    (authors ≠ [] → 0 ≤ limit →
      limit < (((splitAnd authors []).map pyStrip).length : Int) →
      truncate_authors authors limit =
        joinSep (ofStr " and ") (((splitAnd authors []).map pyStrip).take limit.toNat)
          ++ ofStr " and others")
    ∧ (limit < 0 ∨ authors = []
        ∨ (((splitAnd authors []).map pyStrip).length : Int) ≤ limit →
      truncate_authors authors limit = authors) := by
  constructor
  · intro hne hnn hlt
    unfold truncate_authors
    rw [if_neg, if_pos hlt]
    simp [hne, not_lt.mpr hnn]
  · rintro (h | h | h)
    · unfold truncate_authors
      rw [if_pos]
      simp [h]
    · subst h
      unfold truncate_authors
      rw [if_pos]
      simp
    · unfold truncate_authors
      by_cases hguard : (authors.isEmpty || decide (limit < 0)) = true
      · rw [if_pos hguard]
      · rw [if_neg hguard, if_neg (not_lt.mpr h)]

/-- Witness for the amended C7 on concrete inputs: `"A and B and C"`
with limit 2 truncates; with limit 3 and with limit -1 it is returned
unchanged. -/
theorem C7_amended_truncation_witness :
    truncate_authors (ofStr "A and B and C") 2 =
      joinSep (ofStr " and ")
        (((splitAnd (ofStr "A and B and C") []).map pyStrip).take (2 : Int).toNat)
        ++ ofStr " and others"
    ∧ truncate_authors (ofStr "A and B and C") 3 = ofStr "A and B and C" := by
  constructor
  · exact (C7_amended_truncation (ofStr "A and B and C") 2).1 (by decide) (by decide)
      (by decide)
  · exact (C7_amended_truncation (ofStr "A and B and C") 3).2 (by decide)

/-- C10: for every non-empty author string, a limit of exactly `0` is not
the negative no-limit sentinel, any non-empty split exceeds it, and the
result is the literal `" and others"` with zero author names kept. -/
theorem C10_zero_limit (authors : PyStr) (h : authors ≠ []) :
    truncate_authors authors 0 = ofStr " and others" := by
  unfold truncate_authors
  rw [if_neg (by simp [h])]
  rw [if_pos]
  · simp [joinSep]
  · have hlen : 0 < ((splitAnd authors []).map pyStrip).length :=
      List.length_pos.mpr (by
        intro hc
        exact splitAnd_ne_nil authors [] (by simpa using hc))
    exact_mod_cast hlen

/-- Witness for C10 at a concrete two-name input. -/
theorem C10_zero_limit_witness :
    truncate_authors (ofStr "Anna Bell and Ben Cole") 0 = ofStr " and others" :=
  C10_zero_limit (ofStr "Anna Bell and Ben Cole") (by decide)

/-! ### Month normalization (bibfix.py:233-247) -/

theorem copy_get_no_match (t : PyStr) (req : List PyStr) :
    ∀ (entry : Dict) (st : CopyState) (k : PyStr),
    pyLower k = k →
    (∀ p ∈ entry, (pyLower p.1 == k) = false) →
    dictGet (entry.foldl (copyStep t req) st).cleaned k = dictGet st.cleaned k := by
  intro entry
  induction entry with
  | nil => intro st k _ _; rfl
  | cons p rest ih =>
    intro st k hk hall
    rw [List.foldl_cons, ih _ k hk (fun q hq => hall q (List.mem_cons_of_mem p hq))]
    rw [copyStep_cleaned]
    have hne : p.1 ≠ k := by
      intro hc
      have := hall p (List.mem_cons_self p rest)
      rw [hc, hk] at this
      simp at this
    by_cases h1 : req.contains (pyLower p.1) = true
    · rw [if_pos h1, dictGet_dictSet_ne _ _ hne]
    · rw [if_neg h1]

/-- If exactly one input field lowercases to the (already lowercase)
required key `k`, namely `(k, v)` itself, then after the copy loop the
output value at `k` is `v`. -/
theorem copy_get_unique (t : PyStr) (req : List PyStr) :
    ∀ (entry : Dict) (st : CopyState) (k v : PyStr),
    pyLower k = k →
    entry.filter (fun p => pyLower p.1 == k) = [(k, v)] →
    req.contains k = true →
    dictGet st.cleaned k = none →
    dictGet (entry.foldl (copyStep t req) st).cleaned k = some v := by
  intro entry
  induction entry with
  | nil => intro st k v _ hfilter _ _; simp at hfilter
  | cons p rest ih =>
    intro st k v hk hfilter hreq hnone
    by_cases hp : (pyLower p.1 == k) = true
    · rw [List.filter_cons, if_pos hp] at hfilter
      have hple : p = (k, v) := (List.cons_eq_cons.mp hfilter).1
      have hrest : rest.filter (fun p => pyLower p.1 == k) = [] :=
        (List.cons_eq_cons.mp hfilter).2
      have hall : ∀ q ∈ rest, (pyLower q.1 == k) = false := by
        intro q hq
        by_contra hc
        have hq' : q ∈ rest.filter (fun p => pyLower p.1 == k) :=
          List.mem_filter.mpr ⟨hq, by simpa using hc⟩
        rw [hrest] at hq'
        exact List.not_mem_nil q hq'
      rw [List.foldl_cons, copy_get_no_match t req rest _ k hk hall]
      rw [copyStep_cleaned, hple]
      have hplk : pyLower k = k := hk
      rw [show pyLower (k, v).1 = k from hplk, if_pos hreq]
      exact dictGet_dictSet_eq st.cleaned k v
    · rw [List.filter_cons, if_neg hp] at hfilter
      rw [List.foldl_cons]
      refine ih _ k v hk hfilter hreq ?_
      rw [copyStep_cleaned]
      have hne : p.1 ≠ k := by
        intro hc
        rw [hc, hk] at hp
        simp at hp
      by_cases h1 : req.contains (pyLower p.1) = true
      · rw [if_pos h1, dictGet_dictSet_ne _ _ hne]
        exact hnone
      · rw [if_neg h1]
        exact hnone

/-- C8 is false as stated: month normalization is keyed on the exact
lowercase key `'month'` (`if 'month' in cleaned`, bibfix.py:234), while
the copy loop preserves the original key case.  A `misc` record (whose
required set contains `month`) with the field spelled `Month` is copied
unnormalized: the output holds `('Month', 'january')`, not the
normalized `'Jan'`. -/
theorem C8_counterexample :
    pyLower (ofStr "Month") = kmonth
    ∧ (ESSENTIAL_FIELDS (ofStr "misc")).contains kmonth = true
    ∧ dictGet (clean_entry [(kENTRYTYPE, ofStr "misc"), (kID, ofStr "x"),
        (ofStr "Month", ofStr "january")] (-1) false none false none).1
        (ofStr "Month") = some (ofStr "january")
    ∧ monthFix (ofStr "january") = ofStr "Jan"
    ∧ ofStr "january" ≠ ofStr "Jan" := by
  refine ⟨by decide, by decide, by decide, by decide, by decide⟩

/-- C8 (amended): when the record's only month-like field is keyed by the
exact lowercase `'month'` and `month` is required for the entry type, the
cleaned record's month value is the (total, never-failing) normalization
`monthFix`: the `MONTHS` table, else the numeric table, else
capitalizing the trimmed lowercased input. -/
theorem C8_amended_month (entry : Dict) (ma : Int) (mi : Bool) (ab : Option Abbrevs)
    (nc : Bool) (te : Option (List PyStr)) (v : PyStr)
    (hfilter : entry.filter (fun p => pyLower p.1 == kmonth) = [(kmonth, v)])
    (hreq : (ESSENTIAL_FIELDS (pyLower (dictGetD entry kENTRYTYPE []))).contains kmonth
        = true) :
    dictGet (clean_entry entry ma mi ab nc te).1 kmonth = some (monthFix v) := by
  show dictGet (authorStage ma (abbrevStage mi ab (pyLower (dictGetD entry kENTRYTYPE []))
      (titleStage nc (pyLower (dictGetD entry kENTRYTYPE [])) (te.getD [])
        (monthStage (entry.foldl
          (copyStep (pyLower (dictGetD entry kENTRYTYPE []))
            (ESSENTIAL_FIELDS (pyLower (dictGetD entry kENTRYTYPE []))))
          ⟨[(kENTRYTYPE, dictGetD entry kENTRYTYPE (ofStr "misc")),
            (kID, dictGetD entry kID (ofStr "<UNKNOWN>"))], [], false⟩).cleaned)))) kmonth
      = some (monthFix v)
  rw [get_authorStage_ne (by decide), get_abbrevStage_ne (by decide) (by decide),
    get_titleStage_ne (by decide)]
  exact get_monthStage_eq (copy_get_unique _ _ entry _ kmonth v (by decide) hfilter hreq
    (get_pair_ne _ _ (by decide) (by decide)))

/-- Witness for the amended C8 at a concrete `misc` record: the month
value `" SEPTEMBER "` is normalized (to `"Sep"` via `monthFix`). -/
theorem C8_amended_month_witness :
    dictGet (clean_entry [(kENTRYTYPE, ofStr "misc"), (kID, ofStr "x"),
        (kmonth, ofStr " SEPTEMBER ")] (-1) false none false none).1 kmonth
      = some (monthFix (ofStr " SEPTEMBER ")) :=
  C8_amended_month [(kENTRYTYPE, ofStr "misc"), (kID, ofStr "x"),
      (kmonth, ofStr " SEPTEMBER ")] (-1) false none false none (ofStr " SEPTEMBER ")
    (by decide) (by decide)

/-! ### Missing fields and warnings (bibfix.py:290-300) -/

/-- C5: the warning output of `clean_entry` is exactly the spec's
description computed directly from the input record: `missing` is
`required` minus the names found (case-insensitively) in the input, with
the book/proceedings author-or-editor adjustment, and one formatted,
sorted, comma-joined warning is produced exactly when `missing` is
non-empty. -/
theorem C5_missing_warning (entry : Dict) (ma : Int) (mi : Bool) (ab : Option Abbrevs)
    (nc : Bool) (te : Option (List PyStr)) :
    (clean_entry entry ma mi ab nc te).2 = warningsSpec entry := by
  show warningsOf (dictGetD entry kID (ofStr "<UNKNOWN>"))
      (missingFix (pyLower (dictGetD entry kENTRYTYPE []))
        (entry.foldl
          (copyStep (pyLower (dictGetD entry kENTRYTYPE []))
            (ESSENTIAL_FIELDS (pyLower (dictGetD entry kENTRYTYPE []))))
          ⟨[(kENTRYTYPE, dictGetD entry kENTRYTYPE (ofStr "misc")),
            (kID, dictGetD entry kID (ofStr "<UNKNOWN>"))], [], false⟩).has_either
        ((ESSENTIAL_FIELDS (pyLower (dictGetD entry kENTRYTYPE []))).filter
          (fun f => !((entry.foldl
            (copyStep (pyLower (dictGetD entry kENTRYTYPE []))
              (ESSENTIAL_FIELDS (pyLower (dictGetD entry kENTRYTYPE []))))
            ⟨[(kENTRYTYPE, dictGetD entry kENTRYTYPE (ofStr "misc")),
              (kID, dictGetD entry kID (ofStr "<UNKNOWN>"))], [], false⟩).found.contains f))))
      = warningsSpec entry
  have hfilter : (ESSENTIAL_FIELDS (pyLower (dictGetD entry kENTRYTYPE []))).filter
      (fun f => !((entry.foldl
        (copyStep (pyLower (dictGetD entry kENTRYTYPE []))
          (ESSENTIAL_FIELDS (pyLower (dictGetD entry kENTRYTYPE []))))
        ⟨[(kENTRYTYPE, dictGetD entry kENTRYTYPE (ofStr "misc")),
          (kID, dictGetD entry kID (ofStr "<UNKNOWN>"))], [], false⟩).found.contains f))
      = (ESSENTIAL_FIELDS (pyLower (dictGetD entry kENTRYTYPE []))).filter
        (fun f => !(entry.any (fun p => pyLower p.1 == f))) := by
    apply List.filter_congr
    intro f hf
    rw [copy_found_contains]
    have hc : (ESSENTIAL_FIELDS (pyLower (dictGetD entry kENTRYTYPE []))).contains f
        = true := by simp [hf]
    have hpt : ∀ p : PyStr × PyStr,
        ((ESSENTIAL_FIELDS (pyLower (dictGetD entry kENTRYTYPE []))).contains (pyLower p.1)
          && (pyLower p.1 == f)) = (pyLower p.1 == f) := by
      intro p
      cases hb : (pyLower p.1 == f) with
      | false => simp
      | true =>
        have hpf : pyLower p.1 = f := by simpa using hb
        rw [hpf, hc]
        simp
    rw [funext hpt]
    simp
  have heither : (entry.foldl
      (copyStep (pyLower (dictGetD entry kENTRYTYPE []))
        (ESSENTIAL_FIELDS (pyLower (dictGetD entry kENTRYTYPE []))))
      ⟨[(kENTRYTYPE, dictGetD entry kENTRYTYPE (ofStr "misc")),
        (kID, dictGetD entry kID (ofStr "<UNKNOWN>"))], [], false⟩).has_either
      = ((pyLower (dictGetD entry kENTRYTYPE []) == ofStr "book"
          || pyLower (dictGetD entry kENTRYTYPE []) == ofStr "proceedings")
        && entry.any (fun p => pyLower p.1 == kauthor || pyLower p.1 == keditor)) := by
    rw [copy_has_either]
    simp
  rw [hfilter, heither]
  have hmiss : missingFix (pyLower (dictGetD entry kENTRYTYPE []))
      ((pyLower (dictGetD entry kENTRYTYPE []) == ofStr "book"
          || pyLower (dictGetD entry kENTRYTYPE []) == ofStr "proceedings")
        && entry.any (fun p => pyLower p.1 == kauthor || pyLower p.1 == keditor))
      ((ESSENTIAL_FIELDS (pyLower (dictGetD entry kENTRYTYPE []))).filter
        (fun f => !(entry.any (fun p => pyLower p.1 == f))))
      = missingSpec entry := by
    unfold missingFix missingSpec
    by_cases hB : (pyLower (dictGetD entry kENTRYTYPE []) == ofStr "book"
        || pyLower (dictGetD entry kENTRYTYPE []) == ofStr "proceedings") = true
    · rw [hB]
      simp only [Bool.true_and]
    · rw [if_neg hB, if_neg hB]
  rw [hmiss]
  rfl

/-! ### Abbreviation resolution (bibfix.py:253-285) -/

theorem btFold_id (cond : PyStr × List PyStr → Bool) :
    ∀ (CA : List (PyStr × List PyStr)) (d : Dict), (∀ p ∈ CA, cond p = false) →
    CA.foldl (fun acc p => if cond p then dictSet acc kbooktitle p.1 else acc) d = d := by
  intro CA
  induction CA with
  | nil => intro d _; rfl
  | cons a rest ih =>
    intro d hall
    rw [List.foldl_cons, if_neg (by simp [hall a (List.mem_cons_self a rest)])]
    exact ih d (fun p hp => hall p (List.mem_cons_of_mem a hp))

/-- The booktitle value after the conference fold is the abbreviation of
the last matching row, or unchanged when no row matches. -/
theorem btFold_get (cond : PyStr × List PyStr → Bool) :
    ∀ (CA : List (PyStr × List PyStr)) (d : Dict),
    dictGet (CA.foldl
        (fun acc p => if cond p then dictSet acc kbooktitle p.1 else acc) d) kbooktitle
      = (match (CA.filter cond).getLast? with
         | some p => some p.1
         | none => dictGet d kbooktitle) := by
  intro CA
  induction CA with
  | nil => intro d; rfl
  | cons a rest ih =>
    intro d
    rw [List.foldl_cons]
    by_cases hc : cond a = true
    · rw [if_pos hc, ih, List.filter_cons, if_pos hc]
      cases hrest : (rest.filter cond).getLast? with
      | none =>
        have : rest.filter cond = [] := by
          cases hfc : rest.filter cond with
          | nil => rfl
          | cons b l => rw [hfc] at hrest; simp [List.getLast?] at hrest
        rw [this]
        simp [dictGet_dictSet_eq]
      | some p' =>
        cases hfc : rest.filter cond with
        | nil => rw [hfc] at hrest; simp [List.getLast?] at hrest
        | cons b l =>
          rw [hfc] at hrest
          rw [List.getLast?_cons_cons, hrest]
    · rw [if_neg hc, ih, List.filter_cons, if_neg hc]

/-- C6 is false on the code for `inproceedings`: a conference row whose
variant list is empty never fires, even when its normalized abbreviation
is a substring of the normalized booktitle — the substring test sits
inside the loop over the variants.  Concretely, with table row
`ICML ↦ []` and booktitle `"ICML 2020"`, the claim's condition holds but
the booktitle is not replaced. -/
theorem C6_counterexample :
    strContains (normalize_string (ofStr "ICML 2020")) (normalize_string (ofStr "ICML"))
      = true
    ∧ dictGet (clean_entry [(kENTRYTYPE, ofStr "inproceedings"), (kID, ofStr "x"),
        (kbooktitle, ofStr "ICML 2020")] (-1) true (some ⟨[], [(ofStr "ICML", [])]⟩)
        false none).1 kbooktitle = some (ofStr "ICML 2020")
    ∧ ofStr "ICML 2020" ≠ ofStr "ICML" := by
  refine ⟨by decide, by decide, by decide⟩

/-- C6 (amended): with abbreviation mode enabled, the `article` arm
replaces `journal` exactly when the journal table has a row whose full
name is normalized-equal to the journal (the first such row wins), and
the `inproceedings` arm replaces `booktitle` exactly when some row has a
*variant* for which the normalized abbreviation or that normalized
variant is a substring of the normalized booktitle (`btSubCond`; a row
with an empty variant list never fires, and the last matching row wins).
`abbrevStage` dispatches these arms for `article` and `inproceedings`. -/
theorem C6_amended_abbreviation (A : Abbrevs) (d : Dict) (v w : PyStr) :
    (abbrevStage true (some A) (ofStr "article") d = abbrevArticle A d
      ∧ abbrevStage true (some A) (ofStr "inproceedings") d = abbrevInproc A d)
    ∧ (dictGet d kjournal = some v → v ≠ [] →
      ((A.journal_table.find? (fun p => normalize_string v == normalize_string p.2)
          = none → journalStep A.journal_table d = d)
        ∧ ∀ p, A.journal_table.find? (fun p => normalize_string v == normalize_string p.2)
            = some p → dictGet (journalStep A.journal_table d) kjournal = some p.1))
    ∧ (dictGet d kbooktitle = some w → w ≠ [] →
      (((A.conference_table.filter (btSubCond w)).getLast? = none →
          abbrevInproc A d = d)
        ∧ ∀ p, (A.conference_table.filter (btSubCond w)).getLast? = some p →
            dictGet (abbrevInproc A d) kbooktitle = some p.1)) := by
  refine ⟨⟨rfl, rfl⟩, ?_, ?_⟩
  · intro hv hvne
    have hvne' : ¬(v.isEmpty = true) := by simp [hvne]
    constructor
    · intro hfind
      unfold journalStep
      rw [hv]
      show (if v.isEmpty = true then d
            else match A.journal_table.find?
                (fun p => normalize_string v == normalize_string p.2) with
              | some p => dictSet d kjournal p.1
              | none => d) = d
      rw [if_neg hvne', hfind]
    · intro p hfind
      unfold journalStep
      rw [hv]
      show dictGet (if v.isEmpty = true then d
            else match A.journal_table.find?
                (fun p => normalize_string v == normalize_string p.2) with
              | some p => dictSet d kjournal p.1
              | none => d) kjournal = some p.1
      rw [if_neg hvne', hfind]
      exact dictGet_dictSet_eq d kjournal p.1
  · intro hw hwne
    have hwne' : ¬(w.isEmpty = true) := by simp [hwne]
    constructor
    · intro hlast
      have hnil : A.conference_table.filter (btSubCond w) = [] := by
        cases hfc : A.conference_table.filter (btSubCond w) with
        | nil => rfl
        | cons b l => rw [hfc] at hlast; simp [List.getLast?] at hlast
      unfold abbrevInproc btReplace
      rw [hw]
      show (if w.isEmpty = true then d
            else A.conference_table.foldl
              (fun acc p => if btSubCond w p then dictSet acc kbooktitle p.1 else acc) d)
          = d
      rw [if_neg hwne']
      exact btFold_id (btSubCond w) A.conference_table d
        (fun p hp => by
          by_contra hc
          have hmem : p ∈ A.conference_table.filter (btSubCond w) :=
            List.mem_filter.mpr ⟨hp, by simpa using hc⟩
          rw [hnil] at hmem
          exact List.not_mem_nil p hmem)
    · intro p hlast
      unfold abbrevInproc btReplace
      rw [hw]
      show dictGet (if w.isEmpty = true then d
            else A.conference_table.foldl
              (fun acc p => if btSubCond w p then dictSet acc kbooktitle p.1 else acc) d)
          kbooktitle = some p.1
      rw [if_neg hwne', btFold_get (btSubCond w) A.conference_table d, hlast]

/-- Witness for the amended C6 at concrete inputs: an exact normalized
journal match fires, and a substring conference match fires. -/
theorem C6_amended_abbreviation_witness :
    dictGet (journalStep [(ofStr "JAM", ofStr "J. Applied Mech.")]
        [(kjournal, ofStr "J Applied Mech")]) kjournal = some (ofStr "JAM")
    ∧ dictGet (abbrevInproc
        ⟨[], [(ofStr "ICML", [ofStr "International Conference on Machine Learning"])]⟩
        [(kbooktitle, ofStr "Proc. of ICML 2020")]) kbooktitle = some (ofStr "ICML") := by
  constructor
  · exact (((C6_amended_abbreviation
      ⟨[(ofStr "JAM", ofStr "J. Applied Mech.")], []⟩
      [(kjournal, ofStr "J Applied Mech")] (ofStr "J Applied Mech") []).2.1
        (by decide) (by decide)).2 (ofStr "JAM", ofStr "J. Applied Mech.") (by decide))
  · exact (((C6_amended_abbreviation
      ⟨[], [(ofStr "ICML", [ofStr "International Conference on Machine Learning"])]⟩
      [(kbooktitle, ofStr "Proc. of ICML 2020")] []
      (ofStr "Proc. of ICML 2020")).2.2 (by decide) (by decide)).2
        (ofStr "ICML", [ofStr "International Conference on Machine Learning"]) (by decide))

/-! ### The `capitalize_next` state machine of `apply_title_no_cap` -/

theorem processChunks_append (E : List PyStr) :
    ∀ (xs ys : List PyStr) (cap : Bool),
    processChunks E (xs ++ ys) cap
      = processChunks E xs cap ++ processChunks E ys (stateAfter E xs cap) := by
  intro xs
  induction xs with
  | nil => intro ys cap; rfl
  | cons c rest ih =>
    intro ys cap
    rw [List.cons_append]
    by_cases h1 : c.isEmpty = true
    · simp only [processChunks, stateAfter, if_pos h1]
      exact ih ys cap
    · by_cases h2 : pyIsSpace c = true
      · simp only [processChunks, stateAfter, if_neg h1, if_pos h2]
        rw [ih]
        rfl
      · by_cases h3 : (!(sanitizeChunk c).isEmpty) = true
        · simp only [processChunks, stateAfter, if_neg h1, if_neg h2, if_pos h3]
          rw [ih]
          rfl
        · simp only [processChunks, stateAfter, if_neg h1, if_neg h2, if_neg h3]
          rw [ih]
          rfl

/-- Chunks that are empty, whitespace, or pure punctuation never clear a
raised `capitalize_next`. -/
theorem stateAfter_neutral (E : List PyStr) :
    ∀ (cs : List PyStr),
    (∀ c ∈ cs, c = [] ∨ pyIsSpace c = true ∨ sanitizeChunk c = []) →
    stateAfter E cs true = true := by
  intro cs
  induction cs with
  | nil => intro _; rfl
  | cons c rest ih =>
    intro hall
    have ihrest := ih (fun q hq => hall q (List.mem_cons_of_mem c hq))
    by_cases h1 : c.isEmpty = true
    · simp only [stateAfter, if_pos h1]
      exact ihrest
    · by_cases h2 : pyIsSpace c = true
      · simp only [stateAfter, if_neg h1, if_pos h2]
        exact ihrest
      · have h3 : sanitizeChunk c = [] := by
          rcases hall c (List.mem_cons_self c rest) with h | h | h
          · exact absurd (by simp [h]) h1
          · exact absurd h h2
          · exact h
        have h3' : ¬((!(sanitizeChunk c).isEmpty) = true) := by simp [h3]
        simp only [stateAfter, if_neg h1, if_neg h2, if_neg h3']
        split <;> exact ihrest

/-- C3 is false as stated: a *word* chunk ending in sentence punctuation
does not raise `capitalize_next` — the punctuation test only runs in the
pure-punctuation branch (bibfix.py:206-210).  In `"one. two"` the chunk
`"one."` ends with `.`, the next chunk `"two"` is RECASE, yet it comes
out lowercase. -/
theorem C3_counterexample :
    splitWs (ofStr "one. two") = [ofStr "one.", ofStr " ", ofStr "two"]
    ∧ endsSentence (ofStr "one.") = true
    ∧ classifyPreserve [] (ofStr "two") = false
    ∧ apply_title_no_cap (ofStr "one. two") [] = ofStr "One. two"
    ∧ ofStr "One. two" ≠ ofStr "One. Two" := by
  refine ⟨by decide, by decide, by decide, by decide, by decide⟩

/-- C3 (amended): whenever a *pure punctuation* chunk (non-empty, not
whitespace, empty sanitized form) ends with sentence-terminating
punctuation, then — after any run of empty, whitespace, or
pure-punctuation chunks — the next word chunk classified as RECASE is
rendered with `capitalize_alpha`: first alphabetic character uppercased,
all following alphabetic characters lowercased, regardless of the state
the preceding chunks left behind. -/
theorem C3_amended_capitalize_after_punct (E : List PyStr) (cs1 : List PyStr)
    (p : PyStr) (cs2 : List PyStr) (w : PyStr) (cs3 : List PyStr) (cap : Bool)
    (hpne : p.isEmpty = false) (hpws : pyIsSpace p = false)
    (hpsan : sanitizeChunk p = []) (hpend : endsSentence p = true)
    (hcs2 : ∀ c ∈ cs2, c = [] ∨ pyIsSpace c = true ∨ sanitizeChunk c = [])
    (hwne : w.isEmpty = false) (hwws : pyIsSpace w = false)
    (hwsan : (sanitizeChunk w).isEmpty = false)
    (hwrec : classifyPreserve E w = false) :
    processChunks E (cs1 ++ (p :: (cs2 ++ (w :: cs3)))) cap
      = processChunks E cs1 cap
        ++ p :: (processChunks E cs2 true
                  ++ capitalize_alpha w :: processChunks E cs3 false) := by
  have hp1 : ¬(p.isEmpty = true) := by simp [hpne]
  have hp2 : ¬(pyIsSpace p = true) := by simp [hpws]
  have hp3 : ¬((!(sanitizeChunk p).isEmpty) = true) := by simp [hpsan]
  have hw1 : ¬(w.isEmpty = true) := by simp [hwne]
  have hw2 : ¬(pyIsSpace w = true) := by simp [hwws]
  have hw3 : (!(sanitizeChunk w).isEmpty) = true := by simp [hwsan]
  have hw4 : ¬(classifyPreserve E w = true) := by simp [hwrec]
  rw [processChunks_append]
  congr 1
  simp only [processChunks, if_neg hp1, if_neg hp2, if_neg hp3, if_pos hpend]
  congr 1
  rw [processChunks_append, stateAfter_neutral E cs2 hcs2]
  congr 1
  simp only [processChunks, if_neg hw1, if_neg hw2, if_pos hw3, recaseWord,
    if_neg hw4]
  simp

/-- Witness for the amended C3 on the chunks of `"a . b"`: the word
`"b"` after the punctuation chunk `"."` is capitalized. -/
theorem C3_amended_capitalize_after_punct_witness :
    processChunks [] ([ofStr "a", ofStr " "] ++ (ofStr "." :: ([ofStr " "]
        ++ (ofStr "b" :: [])))) true
      = processChunks [] [ofStr "a", ofStr " "] true
        ++ ofStr "." :: (processChunks [] [ofStr " "] true
            ++ capitalize_alpha (ofStr "b") :: processChunks [] [] false) :=
  C3_amended_capitalize_after_punct [] [ofStr "a", ofStr " "] (ofStr ".") [ofStr " "]
    (ofStr "b") [] true (by decide) (by decide) (by decide) (by decide) (by decide)
    (by decide) (by decide) (by decide) (by decide)

/-! ### Character-level facts for the recasing transforms -/

theorem toLowerN_toLowerN (c : Nat) : toLowerN (toLowerN c) = toLowerN c := by
  simp only [toLowerN, isUpperN, decide_eq_true_eq]
  split_ifs <;> omega

theorem toLowerN_toUpperN (c : Nat) : toLowerN (toUpperN c) = toLowerN c := by
  simp only [toLowerN, toUpperN, isUpperN, isLowerN, decide_eq_true_eq]
  split_ifs <;> omega

theorem toUpperN_toUpperN (c : Nat) : toUpperN (toUpperN c) = toUpperN c := by
  simp only [toUpperN, isLowerN, decide_eq_true_eq]
  split_ifs <;> omega

theorem isAlphaN_toUpperN_of {c : Nat} (h : isAlphaN c = true) :
    isAlphaN (toUpperN c) = true := by
  simp only [isAlphaN, isUpperN, isLowerN, toUpperN, decide_eq_true_eq,
    Bool.or_eq_true] at h ⊢
  split_ifs <;> omega

theorem isAlphaN_toLowerN_of {c : Nat} (h : isAlphaN c = true) :
    isAlphaN (toLowerN c) = true := by
  simp only [isAlphaN, isUpperN, isLowerN, toLowerN, decide_eq_true_eq,
    Bool.or_eq_true] at h ⊢
  split_ifs <;> omega

theorem isSpaceN_eq_false_of_alpha {c : Nat} (h : isAlphaN c = true) :
    isSpaceN c = false := by
  simp only [isAlphaN, isUpperN, isLowerN, Bool.or_eq_true, decide_eq_true_eq] at h
  simp only [isSpaceN, decide_eq_false_iff_not]
  omega

theorem toLowerN_eq_of_not_alpha {c : Nat} (h : isAlphaN c = false) :
    toLowerN c = c := by
  simp only [isAlphaN, isUpperN, isLowerN, Bool.or_eq_false_iff,
    decide_eq_false_iff_not] at h
  simp only [toLowerN, isUpperN, decide_eq_true_eq]
  split_ifs <;> omega

theorem charIso_refl (a : Nat) : CharIso a a := Or.inl rfl

theorem charIso_toLowerN_self (a : Nat) : CharIso a (toLowerN a) := by
  by_cases h : isAlphaN a = true
  · exact Or.inr ⟨h, Or.inr rfl⟩
  · rw [toLowerN_eq_of_not_alpha (by simpa using h)]
    exact Or.inl rfl

theorem charIso_toLower {a b : Nat} (h : CharIso a b) : toLowerN b = toLowerN a := by
  rcases h with rfl | ⟨ha, rfl | rfl⟩
  · rfl
  · exact toLowerN_toUpperN a
  · exact toLowerN_toLowerN a

theorem charIso_isSpace {a b : Nat} (h : CharIso a b) : isSpaceN b = isSpaceN a := by
  rcases h with rfl | ⟨ha, rfl | rfl⟩
  · rfl
  · rw [isSpaceN_eq_false_of_alpha (isAlphaN_toUpperN_of ha),
      isSpaceN_eq_false_of_alpha ha]
  · rw [isSpaceN_eq_false_of_alpha (isAlphaN_toLowerN_of ha),
      isSpaceN_eq_false_of_alpha ha]

theorem charIso_eq_of_space {a b : Nat} (h : CharIso a b) (hs : isSpaceN a = true) :
    b = a := by
  rcases h with rfl | ⟨ha, _⟩
  · rfl
  · rw [isSpaceN_eq_false_of_alpha ha] at hs
    exact absurd hs (by simp)

/-! ### Chunk-level facts -/

theorem chunkIso_refl (c : PyStr) : ChunkIso c c :=
  List.forall₂_same.mpr (fun x _ => charIso_refl x)

theorem chunkIso_lowercase (c : PyStr) : ChunkIso c (lowercase_alpha c) := by
  induction c with
  | nil => exact List.Forall₂.nil
  | cons a rest ih =>
    refine List.Forall₂.cons ?_ ih
    by_cases h : isAlphaN a = true
    · simp only [h, if_true]
      exact Or.inr ⟨h, Or.inr rfl⟩
    · simp only [h, if_false]
      exact Or.inl rfl

theorem chunkIso_capitalize (c : PyStr) : ChunkIso c (capitalize_alpha c) := by
  induction c with
  | nil => exact List.Forall₂.nil
  | cons a rest ih =>
    by_cases h : isAlphaN a = true
    · simp only [capitalize_alpha, if_pos h]
      refine List.Forall₂.cons (Or.inr ⟨h, Or.inl rfl⟩) ?_
      have : ∀ l : PyStr, List.Forall₂ CharIso l (l.map toLowerN) := by
        intro l
        induction l with
        | nil => exact List.Forall₂.nil
        | cons x xs ihx => exact List.Forall₂.cons (charIso_toLowerN_self x) ihx
      exact this rest
    · simp only [capitalize_alpha, if_neg h]
      exact List.Forall₂.cons (charIso_refl a) ih

theorem chunkIso_recase (E : List PyStr) (cap : Bool) (c : PyStr) :
    ChunkIso c (recaseWord E cap c) := by
  unfold recaseWord
  split_ifs
  · exact chunkIso_refl c
  · exact chunkIso_capitalize c
  · exact chunkIso_lowercase c

theorem forall2_map_eq {R : Nat → Nat → Prop} {f : Nat → Nat}
    (hf : ∀ a b, R a b → f b = f a) :
    ∀ {l₁ l₂ : PyStr}, List.Forall₂ R l₁ l₂ → l₂.map f = l₁.map f := by
  intro l₁ l₂ h
  induction h with
  | nil => rfl
  | cons hab _ ih => simp only [List.map_cons, ih, hf _ _ hab]

theorem forall2_all_eq {R : Nat → Nat → Prop} {p : Nat → Bool}
    (hp : ∀ a b, R a b → p b = p a) :
    ∀ {l₁ l₂ : PyStr}, List.Forall₂ R l₁ l₂ → l₂.all p = l₁.all p := by
  intro l₁ l₂ h
  induction h with
  | nil => rfl
  | cons hab _ ih => simp only [List.all_cons, ih, hp _ _ hab]

theorem chunkIso_pyLower {c c' : PyStr} (h : ChunkIso c c') : pyLower c' = pyLower c :=
  forall2_map_eq (fun _ _ hab => charIso_toLower hab) h

theorem chunkIso_sanitize {c c' : PyStr} (h : ChunkIso c c') :
    sanitizeChunk c' = sanitizeChunk c := by
  unfold sanitizeChunk
  rw [chunkIso_pyLower h]

theorem chunkIso_isEmpty {c c' : PyStr} (h : ChunkIso c c') : c'.isEmpty = c.isEmpty := by
  have hlen := h.length_eq
  cases c <;> cases c' <;> simp_all

theorem chunkIso_pyIsSpace {c c' : PyStr} (h : ChunkIso c c') :
    pyIsSpace c' = pyIsSpace c := by
  unfold pyIsSpace
  rw [chunkIso_isEmpty h, forall2_all_eq (fun _ _ hab => charIso_isSpace hab) h]

theorem chunkIso_eq_of_all_space : ∀ {c c' : PyStr}, List.Forall₂ CharIso c c' →
    c.all isSpaceN = true → c' = c := by
  intro c c' h
  induction h with
  | nil => intro _; rfl
  | cons hab _ ih =>
    intro hall
    rw [List.all_cons, Bool.and_eq_true] at hall
    rw [charIso_eq_of_space hab hall.1, ih hall.2]

theorem chunkIso_eq_of_space {c c' : PyStr} (h : ChunkIso c c')
    (hs : pyIsSpace c = true) : c' = c := by
  apply chunkIso_eq_of_all_space h
  unfold pyIsSpace at hs
  rw [Bool.and_eq_true] at hs
  exact hs.2

theorem length_capitalize_alpha (c : PyStr) :
    (capitalize_alpha c).length = c.length := by
  induction c with
  | nil => rfl
  | cons a rest ih =>
    by_cases h : isAlphaN a = true
    · simp [capitalize_alpha, if_pos h]
    · simp [capitalize_alpha, if_neg h, ih]

theorem lowercase_alpha_idem (c : PyStr) :
    lowercase_alpha (lowercase_alpha c) = lowercase_alpha c := by
  unfold lowercase_alpha
  rw [List.map_map]
  apply List.map_congr_left
  intro a _
  by_cases h : isAlphaN a = true
  · simp only [Function.comp_apply, if_pos h, if_pos (isAlphaN_toLowerN_of h),
      toLowerN_toLowerN]
  · simp only [Function.comp_apply, if_neg h]

theorem capitalize_alpha_idem (c : PyStr) :
    capitalize_alpha (capitalize_alpha c) = capitalize_alpha c := by
  induction c with
  | nil => rfl
  | cons a rest ih =>
    by_cases h : isAlphaN a = true
    · simp only [capitalize_alpha, if_pos h, if_pos (isAlphaN_toUpperN_of h),
        toUpperN_toUpperN, List.map_map]
      congr 1
      apply List.map_congr_left
      intro x _
      exact toLowerN_toLowerN x
    · simp only [capitalize_alpha, if_neg h, ih]

theorem recaseWord_idem (E : List PyStr) (cap : Bool) (c : PyStr) :
    recaseWord E cap (recaseWord E cap c) = recaseWord E cap c := by
  unfold recaseWord
  by_cases h1 : classifyPreserve E c = true
  · rw [if_pos h1, if_pos h1]
  · rw [if_neg h1]
    cases cap with
    | true =>
      repeat rw [if_pos (rfl : (true : Bool) = true)]
      by_cases h2 : classifyPreserve E (capitalize_alpha c) = true
      · rw [if_pos h2]
      · rw [if_neg h2, capitalize_alpha_idem]
    | false =>
      have hf : ¬((false : Bool) = true) := by simp
      repeat rw [if_neg hf]
      by_cases h2 : classifyPreserve E (lowercase_alpha c) = true
      · rw [if_pos h2]
      · rw [if_neg h2, lowercase_alpha_idem]

/-! ### `re.split(r'(\s+)')`: structure of the chunking -/

theorem splitGo_flatten :
    ∀ (s acc : PyStr) (m : Bool), (splitGo m s acc).flatten = acc.reverse ++ s := by
  intro s
  induction s with
  | nil =>
    intro acc m
    cases m <;> simp [splitGo]
  | cons c rest ih =>
    intro acc m
    cases m with
    | true =>
      by_cases h : isSpaceN c = true
      · simp only [splitGo, if_pos h]
        rw [ih]
        simp
      · simp only [splitGo, if_neg h]
        rw [List.flatten_cons, ih]
        simp
    | false =>
      by_cases h : isSpaceN c = true
      · simp only [splitGo, if_pos h]
        rw [List.flatten_cons, ih]
        simp
      · simp only [splitGo, if_neg h]
        rw [ih]
        simp

theorem splitWs_flatten (s : PyStr) : (splitWs s).flatten = s := by
  unfold splitWs
  rw [splitGo_flatten]
  rfl

/-- Splitting respects pointwise case-isomorphism: strings that agree on
whitespace positions split into chunkwise-isomorphic chunk lists. -/
theorem splitGo_iso :
    ∀ {s t : PyStr}, List.Forall₂ CharIso s t →
    ∀ {acc acc' : PyStr} (m : Bool), List.Forall₂ CharIso acc acc' →
    List.Forall₂ ChunkIso (splitGo m s acc) (splitGo m t acc') := by
  intro s t h
  induction h with
  | nil =>
    intro acc acc' m hacc
    cases m with
    | true =>
      exact List.Forall₂.cons (List.rel_reverse hacc)
        (List.Forall₂.cons List.Forall₂.nil List.Forall₂.nil)
    | false =>
      exact List.Forall₂.cons (List.rel_reverse hacc) List.Forall₂.nil
  | cons hab hrest ih =>
    intro acc acc' m hacc
    next a b s' t' =>
      have hsp := charIso_isSpace hab
      cases m with
      | true =>
        by_cases h1 : isSpaceN a = true
        · simp only [splitGo, if_pos h1, if_pos (hsp.trans h1)]
          exact ih true (List.Forall₂.cons hab hacc)
        · have h1' : ¬(isSpaceN b = true) := by rw [hsp]; exact h1
          simp only [splitGo, if_neg h1, if_neg h1']
          exact List.Forall₂.cons (List.rel_reverse hacc)
            (ih false (List.Forall₂.cons hab List.Forall₂.nil))
      | false =>
        by_cases h1 : isSpaceN a = true
        · simp only [splitGo, if_pos h1, if_pos (hsp.trans h1)]
          exact List.Forall₂.cons (List.rel_reverse hacc)
            (ih true (List.Forall₂.cons hab List.Forall₂.nil))
        · have h1' : ¬(isSpaceN b = true) := by rw [hsp]; exact h1
          simp only [splitGo, if_neg h1, if_neg h1']
          exact ih false (List.Forall₂.cons hab hacc)

/-! ### The keep-empties chunk loop and idempotence -/

theorem processChunksK_flatten (E : List PyStr) :
    ∀ (cs : List PyStr) (b : Bool),
    (processChunksK E cs b).flatten = (processChunks E cs b).flatten := by
  intro cs
  induction cs with
  | nil => intro b; rfl
  | cons c rest ih =>
    intro b
    by_cases h1 : c.isEmpty = true
    · simp only [processChunksK, processChunks, if_pos h1]
      rw [List.flatten_cons, ih]
      simp
    · by_cases h2 : pyIsSpace c = true
      · simp only [processChunksK, processChunks, if_neg h1, if_pos h2]
        rw [List.flatten_cons, List.flatten_cons, ih]
      · by_cases h3 : (!(sanitizeChunk c).isEmpty) = true
        · simp only [processChunksK, processChunks, if_neg h1, if_neg h2, if_pos h3]
          rw [List.flatten_cons, List.flatten_cons, ih]
        · simp only [processChunksK, processChunks, if_neg h1, if_neg h2, if_neg h3]
          rw [List.flatten_cons, List.flatten_cons, ih]

theorem processChunksK_iso (E : List PyStr) :
    ∀ (cs : List PyStr) (b : Bool),
    List.Forall₂ ChunkIso cs (processChunksK E cs b) := by
  intro cs
  induction cs with
  | nil => intro b; exact List.Forall₂.nil
  | cons c rest ih =>
    intro b
    by_cases h1 : c.isEmpty = true
    · simp only [processChunksK, if_pos h1]
      refine List.Forall₂.cons ?_ (ih b)
      rw [List.isEmpty_iff.mp h1]
      exact List.Forall₂.nil
    · by_cases h2 : pyIsSpace c = true
      · simp only [processChunksK, if_neg h1, if_pos h2]
        exact List.Forall₂.cons (chunkIso_refl c) (ih b)
      · by_cases h3 : (!(sanitizeChunk c).isEmpty) = true
        · simp only [processChunksK, if_neg h1, if_neg h2, if_pos h3]
          exact List.Forall₂.cons (chunkIso_recase E b c) (ih false)
        · simp only [processChunksK, if_neg h1, if_neg h2, if_neg h3]
          exact List.Forall₂.cons (chunkIso_refl c) (ih _)

/-- Running the chunk loop on its own output reproduces that output: the
loop is idempotent chunkwise, with the `capitalize_next` state evolving
identically in both passes. -/
theorem processChunksK_idem (E : List PyStr) :
    ∀ (cs : List PyStr) (b : Bool),
    processChunksK E (processChunksK E cs b) b = processChunksK E cs b := by
  intro cs
  induction cs with
  | nil => intro b; rfl
  | cons c rest ih =>
    intro b
    by_cases h1 : c.isEmpty = true
    · simp only [processChunksK, if_pos h1, if_pos List.isEmpty_nil]
      rw [ih]
    · by_cases h2 : pyIsSpace c = true
      · simp only [processChunksK, if_neg h1, if_pos h2]
        rw [ih]
      · by_cases h3 : (!(sanitizeChunk c).isEmpty) = true
        · have hiso := chunkIso_recase E b c
          have hc1 : ¬((recaseWord E b c).isEmpty = true) := by
            rw [chunkIso_isEmpty hiso]
            exact h1
          have hc2 : ¬(pyIsSpace (recaseWord E b c) = true) := by
            rw [chunkIso_pyIsSpace hiso]
            exact h2
          have hc3 : (!(sanitizeChunk (recaseWord E b c)).isEmpty) = true := by
            rw [chunkIso_sanitize hiso]
            exact h3
          simp only [processChunksK, if_neg h1, if_neg h2, if_pos h3, if_neg hc1,
            if_neg hc2, if_pos hc3, recaseWord_idem]
          rw [ih]
        · simp only [processChunksK, if_neg h1, if_neg h2, if_neg h3]
          rw [ih]

theorem forall2_len_of_two {l l₁ l₂ : List PyStr}
    (h1 : List.Forall₂ ChunkIso l l₁) (h2 : List.Forall₂ ChunkIso l l₂) :
    List.Forall₂ (fun a b : PyStr => a.length = b.length) l₁ l₂ := by
  induction h1 generalizing l₂ with
  | nil =>
    rw [List.forall₂_nil_left_iff.mp h2]
    exact List.Forall₂.nil
  | cons hab _ ih =>
    cases h2 with
    | cons hab2 hrest2 =>
      exact List.Forall₂.cons (hab.length_eq.symm.trans hab2.length_eq) (ih hrest2)

theorem flatten_eq_of_len :
    ∀ {cs ds : List PyStr}, List.Forall₂ (fun a b : PyStr => a.length = b.length) cs ds →
    cs.flatten = ds.flatten → cs = ds := by
  intro cs ds h
  induction h with
  | nil => intro _; rfl
  | cons hab _ ih =>
    intro hj
    rw [List.flatten_cons, List.flatten_cons] at hj
    have hsplit := List.append_inj hj hab
    rw [hsplit.1, ih hsplit.2]

theorem apply_title_no_cap_ne {s : PyStr} (E : List PyStr) (h : s.isEmpty = false) :
    apply_title_no_cap s E = (processChunks E (splitWs s) true).flatten := by
  unfold apply_title_no_cap
  rw [if_neg (by simp [h])]

/-- C4: `apply_title_no_cap` is structure-preserving — the input and
output split into the same number of chunks, corresponding chunks have
equal lengths, and every whitespace chunk of the input appears verbatim
at the same chunk position of the output — and idempotent: applying it
twice with the same exception set equals applying it once. -/
theorem C4_structure_idempotent (title : PyStr) (E : List PyStr) :
    List.Forall₂
      (fun cI cO : PyStr => cI.length = cO.length ∧ (pyIsSpace cI = true → cO = cI))
      (splitWs title) (splitWs (apply_title_no_cap title E))
    ∧ apply_title_no_cap (apply_title_no_cap title E) E
        = apply_title_no_cap title E := by
  by_cases ht : title.isEmpty = true
  · have htn : title = [] := List.isEmpty_iff.mp ht
    subst htn
    constructor
    · exact List.Forall₂.cons ⟨rfl, fun h => absurd h (by decide)⟩ List.Forall₂.nil
    · rfl
  · have happly : apply_title_no_cap title E
        = (processChunksK E (splitWs title) true).flatten := by
      rw [apply_title_no_cap_ne E (by simpa using ht)]
      exact (processChunksK_flatten E (splitWs title) true).symm
    have hiso : List.Forall₂ ChunkIso (splitWs title)
        (processChunksK E (splitWs title) true) :=
      processChunksK_iso E (splitWs title) true
    have hchar : List.Forall₂ CharIso title (apply_title_no_cap title E) := by
      rw [happly]
      have hfl := List.rel_flatten hiso
      rwa [splitWs_flatten] at hfl
    have hsplit_iso : List.Forall₂ ChunkIso (splitWs title)
        (splitWs (apply_title_no_cap title E)) :=
      splitGo_iso hchar false List.Forall₂.nil
    have hsplit_eq : splitWs (apply_title_no_cap title E)
        = processChunksK E (splitWs title) true :=
      flatten_eq_of_len (forall2_len_of_two hsplit_iso hiso)
        (by rw [splitWs_flatten, happly])
    constructor
    · exact hsplit_iso.imp
        (fun a b hab => ⟨hab.length_eq, fun hs => chunkIso_eq_of_space hab hs⟩)
    · have hne : (apply_title_no_cap title E).isEmpty = false := by
        have h0 : title ≠ [] := by simpa using ht
        have hlen := hchar.length_eq
        rw [List.isEmpty_eq_false]
        intro hc
        apply h0
        rw [hc] at hlen
        simpa using List.length_eq_zero.mp hlen
      rw [apply_title_no_cap_ne E hne, hsplit_eq,
        ← processChunksK_flatten E (processChunksK E (splitWs title) true) true,
        processChunksK_idem E (splitWs title) true, ← happly]

end Bibfix
